import Mathlib

/-!
Verification development for the ProjectWorldSimRust economic engine.

The Rust sources are embedded shallowly:
* `f64` money and price values are modelled by `ℚ` (all arithmetic the
  claims exercise is exact decimal arithmetic, where `f64` and `ℚ` agree);
* `u32` quantities stored in world state are modelled by `ℤ` so that
  non-negativity is a provable invariant rather than a typing artifact;
  `u32` quantities carried by orders are modelled by `ℕ`;
* `HashMap` fields are modelled by association lists (first binding wins,
  matching the single-binding discipline of the source);
* identifiers (`Uuid`, `AgentId`) are modelled by `ℕ`;
* geometry (positions, distances) is elided: the embedded operations model
  the code paths in which the distance guards have already passed.
-/

namespace WorldSim

/-- Resource kinds, from `crates/core/src/types.rs` (`enum ResourceType`). -/
inductive ResourceType where
  | wood | stone | iron | gold | food | water | cloth | tool | weapon | coin
deriving DecidableEq, Repr

/-- All ten resource constructors, for decidability of universally
quantified inventory statements. -/
def ResourceType.all : List ResourceType :=
  [.wood, .stone, .iron, .gold, .food, .water, .cloth, .tool, .weapon, .coin]

instance : Fintype ResourceType where
  elems := ⟨ResourceType.all, by decide⟩
  complete := by intro r; cases r <;> decide

/-- Agent professions, from `crates/agents/src/agent.rs` (`enum Job`). -/
inductive Job where
  | woodcutter | miner | farmer | builder | unemployed
deriving DecidableEq, Repr

/-- Social hierarchy classes, from `crates/agents/src/agent.rs`
(`enum SocialClass`). -/
inductive SocialClass where
  | king | noble | knight | soldier | merchant | burgher | cleric | peasant
deriving DecidableEq, Repr

/-- Behavioural states, from `crates/agents/src/agent.rs` (`enum AgentState`);
constructor payloads (destinations, task strings, partner ids) are elided as
no claim depends on them. -/
inductive AgentState where
  | idle | moving | working | fighting | sleeping | eating | dead
  | talking | patrolling | following | building | trading
deriving DecidableEq, Repr

/-- Order side, from `crates/societal/src/market.rs` (`enum OrderType`). -/
inductive OrderType where
  | buy | sell
deriving DecidableEq, Repr

/-- A buy or sell order, from `crates/societal/src/market.rs`
(`struct TradeOrder`); the `id : Uuid` field is elided. -/
structure TradeOrder where
  agentId : ℕ
  resource : ResourceType
  quantity : ℕ
  pricePerUnit : ℚ
  orderType : OrderType
deriving DecidableEq, Repr

/-- A matched trade, from `crates/societal/src/market.rs`
(`struct TradeExecution`); the `id` and `market_id` fields are elided. -/
structure TradeExecution where
  buyerId : ℕ
  sellerId : ℕ
  resource : ResourceType
  quantity : ℕ
  pricePerUnit : ℚ
deriving DecidableEq, Repr

/-- One stocked good, from `crates/societal/src/market.rs`
(`struct MarketGood`); the `sellers` list is elided.  The `u32` quantity is
modelled by `ℤ`. -/
structure MarketGood where
  resourceType : ResourceType
  quantity : ℤ
  basePrice : ℚ
  currentPrice : ℚ
deriving DecidableEq, Repr

/-- A market, from `crates/societal/src/market.rs` (`struct Market`);
`id`, `position`, `name`, `market_type` and `reputation` are elided. -/
structure Market where
  inventory : List (ResourceType × MarketGood)
  buyOrders : List TradeOrder
  sellOrders : List TradeOrder
  transactionCount : ℕ
deriving DecidableEq, Repr

namespace Market

/-- Look up the good stocked for a resource
(`self.inventory.get(&resource)`). -/
def lookupGood (inv : List (ResourceType × MarketGood)) (r : ResourceType) :
    Option MarketGood :=
  match inv with
  | [] => none
  | (r', g) :: rest => if r' = r then some g else lookupGood rest r

/-- Update the good bound to a resource when present, leave the list
unchanged otherwise (`inventory.get_mut(&r)` followed by a write). -/
def updateGood (inv : List (ResourceType × MarketGood)) (r : ResourceType)
    (f : MarketGood → MarketGood) : List (ResourceType × MarketGood) :=
  match inv with
  | [] => []
  | (r', g) :: rest =>
    if r' = r then (r', f g) :: rest else (r', g) :: updateGood rest r f

/-- The `entry(r).and_modify(f).or_insert(d)` pattern on the inventory map. -/
def modifyOrInsert (inv : List (ResourceType × MarketGood)) (r : ResourceType)
    (f : MarketGood → MarketGood) (d : MarketGood) :
    List (ResourceType × MarketGood) :=
  match inv with
  | [] => [(r, d)]
  | (r', g) :: rest =>
    if r' = r then (r', f g) :: rest else (r', g) :: modifyOrInsert rest r f d

/-- Matching condition from `Market::match_orders`: same resource and
`buy.price_per_unit >= sell.price_per_unit`. -/
def ordersMatch (buy sell : TradeOrder) : Bool :=
  buy.resource = sell.resource ∧ sell.pricePerUnit ≤ buy.pricePerUnit

/-- Scan of the sell-order list for the first order matching the given buy
order, returning its index and the order (the inner `while j` loop of
`Market::match_orders` up to the first hit). -/
def findMatch (buy : TradeOrder) : List TradeOrder → Option (ℕ × TradeOrder)
  | [] => none
  | s :: rest =>
    if ordersMatch buy s then some (0, s)
    else (findMatch buy rest).map fun p => (p.1 + 1, p.2)

/-- Loop body of `Market::match_orders`.  The source is a `while i` loop
over the buy orders with an inner scan over the sell orders; each
iteration strictly decreases `buy_orders.len() - i`, so running the loop
with `buy_orders.len()` units of fuel reproduces it exactly. -/
def matchLoop : ℕ → List TradeOrder → ℕ → List TradeOrder →
    List TradeExecution → List TradeOrder × List TradeOrder × List TradeExecution
  | 0, buys, _, sells, execs => (buys, sells, execs)
  | fuel + 1, buys, i, sells, execs =>
    match buys[i]? with
    | none => (buys, sells, execs)
    | some b =>
      match findMatch b sells with
      | none => matchLoop fuel buys (i + 1) sells execs
      | some (j, s) =>
        let quantity := min b.quantity s.quantity
        let exec : TradeExecution := ⟨b.agentId, s.agentId, b.resource, quantity,
          (b.pricePerUnit + s.pricePerUnit) / 2⟩
        let buys2 := if b.quantity - quantity = 0 then buys.eraseIdx i
                     else buys.set i { b with quantity := b.quantity - quantity }
        let i1 := if b.quantity - quantity = 0 then i else i + 1
        let sells2 := if s.quantity - quantity = 0 then sells.eraseIdx j
                      else sells.set j { s with quantity := s.quantity - quantity }
        let j1 := if s.quantity - quantity = 0 then j else j + 1
        let i2 := if sells2.length ≤ j1 then i1 + 1 else i1
        matchLoop fuel buys2 i2 sells2 (execs ++ [exec])

/-- `Market::match_orders`: runs the matching loop and returns the updated
market together with the list of executions; `transaction_count` is bumped
once per execution as in the source. -/
def matchOrders (m : Market) : Market × List TradeExecution :=
  let r := matchLoop m.buyOrders.length m.buyOrders 0 m.sellOrders []
  ({ m with buyOrders := r.1, sellOrders := r.2.1,
            transactionCount := m.transactionCount + r.2.2.length }, r.2.2)

/-- Rust `f64::clamp(lo, hi)` (the source only calls it with `lo ≤ hi`). -/
def clampQ (lo hi x : ℚ) : ℚ :=
  if x < lo then lo else if hi < x then hi else x

/-- Demand for one good: the summed quantity of buy orders for its resource
type (`Market::update_prices`, demand computation). -/
def demandFor (buyOrders : List TradeOrder) (r : ResourceType) : ℕ :=
  ((buyOrders.filter fun o => o.resource = r).map fun o => o.quantity).sum

/-- Price update for one good, from `Market::update_prices`. -/
def repriceGood (buyOrders : List TradeOrder) (g : MarketGood) : MarketGood :=
  let demand : ℕ := demandFor buyOrders g.resourceType
  let supplyFactor : ℚ :=
    if 0 < g.quantity then (demand : ℚ) / (g.quantity : ℚ) else 2
  let p := g.basePrice * ((0.8 : ℚ) + supplyFactor * (0.4 : ℚ))
  { g with currentPrice := clampQ (g.basePrice * (0.5 : ℚ)) (g.basePrice * 3) p }

/-- `Market::update_prices`: reprices every stocked good from current
demand and supply. -/
def updatePrices (m : Market) : Market :=
  { m with inventory := m.inventory.map fun p => (p.1, repriceGood m.buyOrders p.2) }

/-- `Market::place_buy_order`. -/
def placeBuyOrder (m : Market) (o : TradeOrder) : Market :=
  { m with buyOrders := m.buyOrders ++ [o] }

/-- `Market::place_sell_order`. -/
def placeSellOrder (m : Market) (o : TradeOrder) : Market :=
  { m with sellOrders := m.sellOrders ++ [o] }

end Market

/-- Resources a builder is carrying to a build site, from
`crates/agents/src/agent.rs` (`struct BuildingResources`); the `u32`
amounts are modelled by `ℤ`. -/
structure BuildingResources where
  wood : ℤ
  stone : ℤ
  iron : ℤ
  targetBuildingId : ℕ
deriving DecidableEq, Repr

/-- An agent, from `crates/agents/src/agent.rs` (`struct SimAgent`),
restricted to the fields the economic engine reads or writes; name, age,
position, attributes, personality, skills and similar fields are elided. -/
structure Agent where
  id : ℕ
  wallet : ℚ
  inventory : List (ResourceType × ℤ)
  needs : List (ResourceType × ℕ)
  job : Job
  socialClass : SocialClass
  state : AgentState
  carryingResources : Option BuildingResources
deriving DecidableEq, Repr

namespace Agent

/-- Inventory lookup defaulting to zero
(`inventory.get(&r).copied().unwrap_or(0)`). -/
def invGet (inv : List (ResourceType × ℤ)) (r : ResourceType) : ℤ :=
  match inv with
  | [] => 0
  | (r', q) :: rest => if r' = r then q else invGet rest r

/-- The `*inventory.entry(r).or_insert(0) += q` pattern. -/
def invAdd (inv : List (ResourceType × ℤ)) (r : ResourceType) (q : ℤ) :
    List (ResourceType × ℤ) :=
  match inv with
  | [] => [(r, 0 + q)]
  | (r', q') :: rest =>
    if r' = r then (r', q' + q) :: rest else (r', q') :: invAdd rest r q

/-- The `if let Some(x) = inventory.get_mut(&r) { *x = x.saturating_sub(q) }`
pattern: a present binding is saturating-subtracted, an absent binding is
left absent. -/
def invSatSub (inv : List (ResourceType × ℤ)) (r : ResourceType) (q : ℤ) :
    List (ResourceType × ℤ) :=
  match inv with
  | [] => []
  | (r', q') :: rest =>
    if r' = r then (r', max 0 (q' - q)) :: rest
    else (r', q') :: invSatSub rest r q

end Agent

/-- The `agents.iter_mut().find(|a| p a)` followed by in-place mutation
pattern: apply `f` to the first agent satisfying `p`, leave the rest
unchanged. -/
def updateFirst (p : Agent → Bool) (f : Agent → Agent) :
    List Agent → List Agent
  | [] => []
  | a :: rest => if p a then f a :: rest else a :: updateFirst p f rest

/-- Settlement of one matched trade, from `Simulation::tick_slow`
(`sim_server/src/simulation.rs`, trade-execution loop): the first agent
with the buyer id pays `price * quantity` and receives the goods if it can
afford them, then the first agent with the seller id (searched in the
updated roster) receives the money and loses up to `quantity` of the
resource (`saturating_sub`). -/
def settleTrade (agents : List Agent) (t : TradeExecution) : List Agent :=
  match agents.find? fun a => a.id = t.buyerId with
  | none => agents
  | some buyer =>
    let totalCost := t.pricePerUnit * (t.quantity : ℚ)
    if totalCost ≤ buyer.wallet then
      let agents1 := updateFirst (fun a => a.id = t.buyerId)
        (fun a => { a with wallet := a.wallet - totalCost,
                           inventory := Agent.invAdd a.inventory t.resource (t.quantity : ℤ) })
        agents
      match agents1.find? fun a => a.id = t.sellerId with
      | none => agents1
      | some _ =>
        updateFirst (fun a => a.id = t.sellerId)
          (fun a => { a with wallet := a.wallet + totalCost,
                             inventory := Agent.invSatSub a.inventory t.resource (t.quantity : ℤ) })
          agents1
    else agents

/-- Settlement of a list of matched trades in order. -/
def settleTrades (agents : List Agent) (ts : List TradeExecution) : List Agent :=
  ts.foldl settleTrade agents

/-- Building ownership, from `crates/world/src/buildings.rs`
(`enum BuildingOwner`). -/
inductive BuildingOwner where
  | faction (factionId : ℕ)
  | agent (agentId : ℕ)
  | public
deriving DecidableEq, Repr

/-- A building, from `crates/world/src/buildings.rs` (`struct Building`),
restricted to the fields the financing subsystem uses.  The
`construction_fund : f64` field is read and written throughout
`sim_server/src/simulation.rs` but its declaration lives outside the
included sources; it is modelled from the spec (a per-building amount of
money, a real number `≥ 0`, independent of any agent's wallet) and from
those call sites. -/
structure Building where
  id : ℕ
  owner : BuildingOwner
  constructionProgress : ℚ
  requiredResources : List (ResourceType × ℕ)
  currentResources : List (ResourceType × ℤ)
  constructionFund : ℚ
deriving DecidableEq, Repr

namespace Building

/-- `Building::remaining_resources`: for every required resource whose
delivered amount is still short, the outstanding difference. -/
def remainingResources (b : Building) : List (ResourceType × ℤ) :=
  (b.requiredResources.filterMap fun p =>
    let current := Agent.invGet b.currentResources p.1
    if current < (p.2 : ℤ) then some (p.1, (p.2 : ℤ) - current) else none)

/-- `Building::add_resources` (builder delivery). -/
def addResources (b : Building) (r : ResourceType) (q : ℤ) : Building :=
  { b with currentResources := Agent.invAdd b.currentResources r q }

end Building

/-- Lookup in an outstanding-resources association list
(`remaining.get(&r)`). -/
def lookupQty (l : List (ResourceType × ℤ)) (r : ResourceType) : Option ℤ :=
  match l with
  | [] => none
  | (r', q) :: rest => if r' = r then some q else lookupQty rest r

/-- One resource block of the builder market purchase in
`Simulation::tick_slow` (`sim_server/src/simulation.rs`, builder purchase):
if the building still needs the resource and the market stocks it, take
`needed.min(cap).min(stock)` units; commit only when the building fund
minus what this trip already spent covers the cost, otherwise buy nothing
of this resource.  Returns the updated market, the units taken and the
updated running cost. -/
def purchaseStep (remaining : List (ResourceType × ℤ)) (fund : ℚ)
    (r : ResourceType) (cap : ℤ) (m : Market) (totalCost : ℚ) :
    Market × ℤ × ℚ :=
  match lookupQty remaining r with
  | none => (m, 0, totalCost)
  | some needed =>
    match Market.lookupGood m.inventory r with
    | none => (m, 0, totalCost)
    | some g =>
      let take := min (min needed cap) g.quantity
      if 0 < take then
        let cost := g.currentPrice * (take : ℚ)
        if cost ≤ fund - totalCost then
          ({ m with inventory := Market.updateGood m.inventory r
                      fun g0 => { g0 with quantity := g0.quantity - take } },
           take, totalCost + cost)
        else (m, 0, totalCost)
      else (m, 0, totalCost)

/-- Result of one builder market trip. -/
structure PurchaseOutcome where
  market : Market
  carried : BuildingResources
  totalCost : ℚ
deriving DecidableEq, Repr

/-- The builder market purchase of `Simulation::tick_slow`: wood (per-trip
cap 20), then stone (cap 20), then iron (cap 10), each paid from the
building's construction fund, with the fund checked against the running
total before each commitment exactly as in the source. -/
def builderPurchase (fund : ℚ) (remaining : List (ResourceType × ℤ))
    (m : Market) (targetId : ℕ) : PurchaseOutcome :=
  let w := purchaseStep remaining fund .wood 20 m 0
  let s := purchaseStep remaining fund .stone 20 w.1 w.2.2
  let i := purchaseStep remaining fund .iron 10 s.1 s.2.2
  ⟨i.1, ⟨w.2.1, s.2.1, i.2.1, targetId⟩, i.2.2⟩

/-- A harvestable node, from `crates/world/src/resources.rs`
(`struct ResourceNode`); type and position are elided, the `u32` quantity
is modelled by `ℤ`. -/
structure ResourceNode where
  id : ℕ
  quantity : ℤ
deriving DecidableEq, Repr

/-- `ResourceManager::harvest`: clamp the requested amount to the node's
remaining quantity, decrement the node, and return the harvested amount;
`none` when no node carries the id. -/
def harvest : List ResourceNode → ℕ → ℕ → List ResourceNode × Option ℤ
  | [], _, _ => ([], none)
  | n :: rest, nodeId, amount =>
    if n.id = nodeId then
      let harvested := min (amount : ℤ) n.quantity
      ({ n with quantity := n.quantity - harvested } :: rest, some harvested)
    else
      let r := harvest rest nodeId amount
      (n :: r.1, r.2)

/-- An agent wallet, from `crates/societal/src/currency.rs`
(`struct Wallet`). -/
structure Wallet where
  balance : ℚ
  totalEarned : ℚ
  totalSpent : ℚ
deriving DecidableEq, Repr

namespace Wallet

/-- `Wallet::deposit`. -/
def deposit (w : Wallet) (amount : ℚ) : Wallet :=
  { w with balance := w.balance + amount, totalEarned := w.totalEarned + amount }

/-- `Wallet::withdraw`: succeeds and debits only when the balance covers
the amount. -/
def withdraw (w : Wallet) (amount : ℚ) : Wallet × Bool :=
  if amount ≤ w.balance then
    ({ w with balance := w.balance - amount,
              totalSpent := w.totalSpent + amount }, true)
  else (w, false)

/-- `Wallet::can_afford`. -/
def canAfford (w : Wallet) (amount : ℚ) : Bool :=
  amount ≤ w.balance

end Wallet

/-- Truncating cast from a float to `usize` (`as usize`): truncation toward
zero, saturating at zero for negative values. -/
def fToUsize (x : ℚ) : ℕ :=
  x.floor.toNat

/-- Aggregated market signals read by `Simulation::rebalance_labor`:
summed inventories and last-seen current prices for the four tracked
resources, with the source's default prices. -/
structure LaborSignals where
  woodInv : ℤ
  stoneInv : ℤ
  ironInv : ℤ
  foodInv : ℤ
  woodPrice : ℚ
  stonePrice : ℚ
  ironPrice : ℚ
  foodPrice : ℚ
deriving DecidableEq, Repr

/-- Initial labor signals (`wood_price = 5.0` etc. before the market scan). -/
def initSignals : LaborSignals :=
  ⟨0, 0, 0, 0, 5, 3, 15, 10⟩

/-- One market's contribution to the labor signals: inventory totals are
accumulated and each price is overwritten by the last market that stocks
the good, as in the source scan. -/
def stepSignals (s : LaborSignals) (m : Market) : LaborSignals :=
  let s1 := match Market.lookupGood m.inventory .wood with
    | some g => { s with woodInv := s.woodInv + g.quantity, woodPrice := g.currentPrice }
    | none => s
  let s2 := match Market.lookupGood m.inventory .stone with
    | some g => { s1 with stoneInv := s1.stoneInv + g.quantity, stonePrice := g.currentPrice }
    | none => s1
  let s3 := match Market.lookupGood m.inventory .iron with
    | some g => { s2 with ironInv := s2.ironInv + g.quantity, ironPrice := g.currentPrice }
    | none => s2
  match Market.lookupGood m.inventory .food with
    | some g => { s3 with foodInv := s3.foodInv + g.quantity, foodPrice := g.currentPrice }
    | none => s3

/-- Eligibility for job conversion in `Simulation::rebalance_labor`: only
builders and unemployed agents, and never the protected upper classes. -/
def eligibleForConversion (a : Agent) : Bool :=
  (a.job = .builder ∨ a.job = .unemployed) ∧
  ¬(a.socialClass = .king ∨ a.socialClass = .noble ∨
    a.socialClass = .knight ∨ a.socialClass = .soldier)

/-- Job selection (`new_job`) inside the conversion loop of
`Simulation::rebalance_labor`: fill the woodcutter, miner and farmer
targets in order, then fall back to the highest-demand job; the chosen
job's running counter is incremented. -/
def convertStep (fw fm ff : ℕ) (dW dS dI dF : ℚ) (cw cm cf : ℕ) :
    Job × ℕ × ℕ × ℕ :=
  if cw < fw then (.woodcutter, cw + 1, cm, cf)
  else if cm < fm then (.miner, cw, cm + 1, cf)
  else if cf < ff then (.farmer, cw, cm, cf + 1)
  else if dS + dI ≤ dW ∧ dF ≤ dW then (.woodcutter, cw + 1, cm, cf)
  else if dF ≤ dS + dI then (.miner, cw, cm + 1, cf)
  else (.farmer, cw, cm, cf + 1)

/-- The conversion loop of `Simulation::rebalance_labor`: walk the roster,
converting eligible agents to the harvester job whose target is not yet
met (falling back to the highest-demand job), stopping once `needed`
conversions happened.  Returns the updated roster and the number of
conversions. -/
def convertLoop (needed fw fm ff : ℕ) (dW dS dI dF : ℚ) :
    ℕ → ℕ → ℕ → ℕ → List Agent → List Agent × ℕ
  | converted, _, _, _, [] => ([], converted)
  | converted, cw, cm, cf, a :: rest =>
    if needed ≤ converted then (a :: rest, converted)
    else if eligibleForConversion a then
      let step := convertStep fw fm ff dW dS dI dF cw cm cf
      let r := convertLoop needed fw fm ff dW dS dI dF (converted + 1)
        step.2.1 step.2.2.1 step.2.2.2 rest
      ({ a with job := step.1 } :: r.1, r.2)
    else
      let r := convertLoop needed fw fm ff dW dS dI dF converted cw cm cf rest
      (a :: r.1, r.2)

/-- Number of agents holding a job. -/
def countJob (agents : List Agent) (j : Job) : ℕ :=
  (agents.filter fun a => a.job = j).length

/-- Total harvester count: woodcutters, miners and farmers. -/
def harvCount (agents : List Agent) : ℕ :=
  countJob agents .woodcutter + countJob agents .miner + countJob agents .farmer

/-- Demand-score and target computation of `Simulation::rebalance_labor`,
a function of the market signals and the total population only: returns
`((target_harvesters, final_woodcutters, final_miners, final_farmers),
(wood, stone, iron, food demand scores))`. -/
def rebalanceTargets (markets : List Market) (total : ℕ) :
    (ℕ × ℕ × ℕ × ℕ) × (ℚ × ℚ × ℚ × ℚ) :=
  let s := markets.foldl stepSignals initSignals
  let dW := s.woodPrice / ((s.woodInv : ℚ) + 10)
  let dS := s.stonePrice / ((s.stoneInv : ℚ) + 10)
  let dI := s.ironPrice / ((s.ironInv : ℚ) + 10)
  let dF := s.foodPrice / ((s.foodInv : ℚ) + 10)
  let totalDemand := dW + dS + dI + dF
  let targetHarvesters := fToUsize ((total : ℚ) * (0.40 : ℚ))
  let tw := fToUsize (max ((dW / totalDemand) * (targetHarvesters : ℚ)) 1)
  let tm := fToUsize (max (((dS + dI) / totalDemand) * (targetHarvesters : ℚ)) 1)
  let tf := fToUsize (max ((dF / totalDemand) * (targetHarvesters : ℚ)) 1)
  let targetSum := tw + tm + tf
  let finals : ℕ × ℕ × ℕ :=
    if targetHarvesters < targetSum then
      let scale : ℚ := (targetHarvesters : ℚ) / (targetSum : ℚ)
      (fToUsize (max ((tw : ℚ) * scale) 1),
       fToUsize (max ((tm : ℚ) * scale) 1),
       fToUsize (max ((tf : ℚ) * scale) 1))
    else (tw, tm, tf)
  ((targetHarvesters, finals.1, finals.2.1, finals.2.2), (dW, dS, dI, dF))

/-- `Simulation::rebalance_labor` (`sim_server/src/simulation.rs`): read
market price and inventory signals, derive demand scores and target
harvester counts, and convert eligible builders and unemployed agents into
harvester jobs while the harvester count is below target. -/
def rebalanceLabor (markets : List Market) (agents : List Agent) : List Agent :=
  if agents.length = 0 then agents else
  let t := rebalanceTargets markets agents.length
  if harvCount agents < t.1.1 then
    (convertLoop (t.1.1 - harvCount agents) t.1.2.1 t.1.2.2.1 t.1.2.2.2
      t.2.1 t.2.2.1 t.2.2.2.1 t.2.2.2.2 0 (countJob agents .woodcutter)
      (countJob agents .miner) (countJob agents .farmer) agents).1
  else agents

/-- Update the element at an index, leaving the list unchanged when the
index is out of range. -/
def modAt : List α → ℕ → (α → α) → List α
  | [], _, _ => []
  | x :: rest, 0, f => f x :: rest
  | x :: rest, n + 1, f => x :: modAt rest n f

/-- The shared world state mutated by the tick phases: agent roster,
market system and building registry.  The currency ledger only counts
supply and transactions (`crates/societal/src/currency.rs`) and no claim
constrains it, so it is elided. -/
structure World where
  agents : List Agent
  markets : List Market
  buildings : List Building
deriving DecidableEq, Repr

/-- Base price table used by `Simulation::tick_slow` for deposits and order
placement and by `balance_market_inventories` for transferred goods (both
source `match` tables bind the same prices):
food 10, wood 5, stone 3, iron 15, anything else 5. -/
def basePriceOf (r : ResourceType) : ℚ :=
  match r with
  | .food => 10
  | .wood => 5
  | .stone => 3
  | .iron => 15
  | _ => 5

/-- Wage table of the slow-tick wage system in `Simulation::tick_slow`. -/
def wageOf (a : Agent) : ℚ :=
  match a.job with
  | .farmer => 5
  | .woodcutter => 6
  | .miner => 7
  | .builder => 8
  | .unemployed =>
    match a.socialClass with
    | .king => 50
    | .noble => 20
    | .knight => 15
    | .soldier => 10
    | .merchant => 12
    | .cleric => 8
    | _ => 0

/-- Classes taxed by `Simulation::collect_taxes`. -/
def taxable (a : Agent) : Bool :=
  a.socialClass = .peasant ∨ a.socialClass = .burgher ∨
  a.socialClass = .merchant ∨ a.socialClass = .cleric ∨
  a.socialClass = .soldier

/-- `Simulation::get_market_price`: the current price of a resource
averaged over the markets stocking it, with fixed fallbacks when none
does. -/
def getMarketPrice (markets : List Market) (r : ResourceType) : ℚ :=
  let priced := markets.filterMap fun m => Market.lookupGood m.inventory r
  if priced.length = 0 then basePriceOf r
  else ((priced.map fun g => g.currentPrice).sum) / (priced.length : ℚ)

/-- Accumulator of the harvester market deposit: market inventory under
construction, units deposited so far, and money earned so far. -/
structure DepositAcc where
  inv : List (ResourceType × MarketGood)
  deposited : ℤ
  earned : ℚ

/-- One inventory entry of the harvester deposit loop in
`Simulation::tick_slow`: positive holdings are added to the market good
(created at its base price when absent) and credited at 90% of base price
(the market keeps a 10% fee). -/
def depositEntry (acc : DepositAcc) (p : ResourceType × ℤ) : DepositAcc :=
  if 0 < p.2 then
    let base := basePriceOf p.1
    let sellPrice := base * (0.9 : ℚ)
    let earnings := sellPrice * (p.2 : ℚ)
    { inv := Market.modifyOrInsert acc.inv p.1
        (fun g => { g with quantity := g.quantity + p.2 })
        ⟨p.1, p.2, base, base⟩,
      deposited := acc.deposited + p.2,
      earned := acc.earned + earnings }
  else acc

/-- Noble contribution step of the public-building branch of
`Simulation::replenish_construction_funds`: a noble whose wallet covers
the per-noble share pays it. -/
def contributeNoble (per : ℚ) (acc : List Agent × ℚ) (nid : ℕ) :
    List Agent × ℚ :=
  match acc.1.find? fun a => a.id = nid with
  | none => acc
  | some a =>
    if per ≤ a.wallet then
      (updateFirst (fun x => x.id = nid)
        (fun x => { x with wallet := x.wallet - per }) acc.1, acc.2 + per)
    else acc

/-- The operations of the economic engine exercised by the claims, each a
code path of `sim_server/src/simulation.rs` (with
`crates/societal/src/currency.rs` for `walletWithdraw`).  Numeric
parameters stand for the values the surrounding code computes (indices of
the touched market, building or agent; requested amounts), quantified over
all values so the theorems cover every schedule. -/
inductive Op where
  | payWages
  | placeBuy (aIdx mIdx : ℕ) (r : ResourceType) (deficit : ℕ) (desperate : Bool)
  | placeSell (aIdx mIdx : ℕ) (r : ResourceType) (excess : ℕ) (merchant : Bool)
  | matchAndSettle (mIdx : ℕ)
  | updatePricesAt (mIdx : ℕ)
  | marketDeposit (aIdx mIdx : ℕ)
  | interMarketTransfer (fromIdx toIdx : ℕ) (r : ResourceType) (amount : ℕ)
  | builderPurchaseAt (bIdx mIdx aIdx : ℕ)
  | replenishFund (bIdx : ℕ)
  | collectTaxes
  | walletWithdraw (aIdx : ℕ) (amount : ℚ)
deriving DecidableEq, Repr

/-- Transition function of the world state machine: the effect of each
operation, transcribed from its source code path. -/
def applyOp (w : World) (op : Op) : World :=
  match op with
  | .payWages =>
    { w with agents := w.agents.map fun a =>
        let wage := wageOf a
        if 0 < wage then { a with wallet := a.wallet + wage } else a }
  | .placeBuy aIdx mIdx r deficit desperate =>
    match w.agents[aIdx]? with
    | none => w
    | some a =>
      let maxPrice := basePriceOf r * (if desperate then 2 else (1.5 : ℚ))
      if maxPrice * (deficit : ℚ) ≤ a.wallet then
        { w with markets := modAt w.markets mIdx fun m =>
            m.placeBuyOrder ⟨a.id, r, deficit, maxPrice, .buy⟩ }
      else w
  | .placeSell aIdx mIdx r excess merchant =>
    match w.agents[aIdx]? with
    | none => w
    | some a =>
      let askingPrice := basePriceOf r * (if merchant then (1.2 : ℚ) else 1)
      { w with markets := modAt w.markets mIdx fun m =>
          m.placeSellOrder ⟨a.id, r, excess, askingPrice, .sell⟩ }
  | .matchAndSettle mIdx =>
    match w.markets[mIdx]? with
    | none => w
    | some m =>
      let r := m.matchOrders
      { w with agents := settleTrades w.agents r.2,
               markets := modAt w.markets mIdx fun _ => r.1.updatePrices }
  | .updatePricesAt mIdx =>
    { w with markets := modAt w.markets mIdx Market.updatePrices }
  | .marketDeposit aIdx mIdx =>
    match w.agents[aIdx]? with
    | none => w
    | some a =>
      if a.state = .trading ∧
         (a.job = .woodcutter ∨ a.job = .miner ∨ a.job = .farmer) then
        match w.markets[mIdx]? with
        | none => w
        | some m =>
          let acc := a.inventory.foldl depositEntry ⟨m.inventory, 0, 0⟩
          let a1 := if 0 < acc.earned then { a with wallet := a.wallet + acc.earned } else a
          let a2 := if 0 < acc.deposited then { a1 with inventory := [] } else a1
          { w with agents := modAt w.agents aIdx fun _ => { a2 with state := .working },
                   markets := modAt w.markets mIdx fun m0 => { m0 with inventory := acc.inv } }
      else w
  | .interMarketTransfer fromIdx toIdx r amount =>
    match w.markets[fromIdx]? with
    | none => w
    | some fromM =>
      match Market.lookupGood fromM.inventory r with
      | none => w
      | some g =>
        if (amount : ℤ) ≤ g.quantity then
          let removeFrom : Market → Market := fun m =>
            { m with inventory := Market.updateGood m.inventory r
                                    (fun g0 => { g0 with quantity := g0.quantity - (amount : ℤ) }) }
          let addTo : Market → Market := fun m =>
            { m with inventory := Market.modifyOrInsert m.inventory r
                                    (fun g0 => { g0 with quantity := g0.quantity + (amount : ℤ) })
                                    ⟨r, (amount : ℤ), basePriceOf r, basePriceOf r⟩ }
          { w with markets := modAt (modAt w.markets fromIdx removeFrom) toIdx addTo }
        else w
  | .builderPurchaseAt bIdx mIdx aIdx =>
    match w.buildings[bIdx]? with
    | none => w
    | some b =>
      match w.markets[mIdx]? with
      | none => w
      | some m =>
        let remaining := b.remainingResources
        if remaining = [] then w
        else
          let out := builderPurchase b.constructionFund remaining m b.id
          { w with
            markets := modAt w.markets mIdx fun _ => out.market,
            buildings := modAt w.buildings bIdx fun b0 =>
              if 0 < out.totalCost then
                { b0 with constructionFund := b0.constructionFund - out.totalCost }
              else b0,
            agents := modAt w.agents aIdx fun a =>
              if 0 < out.carried.wood ∨ 0 < out.carried.stone ∨ 0 < out.carried.iron then
                { a with carryingResources := some out.carried, state := .building }
              else a }
  | .replenishFund bIdx =>
    match w.buildings[bIdx]? with
    | none => w
    | some b =>
      if b.constructionProgress < 1 then
        let remaining := b.remainingResources
        let estimatedCost : ℚ :=
          (remaining.map fun p => getMarketPrice w.markets p.1 * (p.2 : ℚ)).sum
        if b.constructionFund < estimatedCost * (0.5 : ℚ) then
          let additionalNeeded := estimatedCost * 2
          match b.owner with
          | .agent oid =>
            match w.agents.find? fun a => a.id = oid with
            | none => w
            | some owner =>
              if additionalNeeded ≤ owner.wallet then
                { w with
                  agents := updateFirst (fun a => a.id = oid)
                    (fun a => { a with wallet := a.wallet - additionalNeeded }) w.agents,
                  buildings := modAt w.buildings bIdx fun b0 =>
                    { b0 with constructionFund := b0.constructionFund + additionalNeeded } }
              else w
          | .public =>
            let nobleIds := (w.agents.filter fun a =>
              a.socialClass = .king ∨ a.socialClass = .noble).map fun a => a.id
            if nobleIds = [] then w
            else
              let per := additionalNeeded / (nobleIds.length : ℚ)
              let funding := nobleIds.foldl (contributeNoble per) (w.agents, 0)
              if 0 < funding.2 then
                { w with
                  agents := funding.1,
                  buildings := modAt w.buildings bIdx fun b0 =>
                    { b0 with constructionFund := b0.constructionFund + funding.2 } }
              else { w with agents := funding.1 }
          | .faction _ => w
        else w
      else w
  | .collectTaxes =>
    let totalCollected : ℚ :=
      (w.agents.map fun a =>
        if taxable a ∧ 50 < a.wallet then a.wallet * (0.05 : ℚ) else 0).sum
    let taxed := w.agents.map fun a =>
      if taxable a ∧ 50 < a.wallet then
        { a with wallet := a.wallet - a.wallet * (0.05 : ℚ) }
      else a
    if 0 < totalCollected then
      let nobleIds := (taxed.filter fun a =>
        a.socialClass = .king ∨ a.socialClass = .noble).map fun a => a.id
      if nobleIds = [] then { w with agents := taxed }
      else
        let perNoble := totalCollected / (nobleIds.length : ℚ)
        { w with agents := taxed.map fun a =>
            if nobleIds.contains a.id then { a with wallet := a.wallet + perNoble }
            else a }
    else { w with agents := taxed }
  | .walletWithdraw aIdx amount =>
    { w with agents := modAt w.agents aIdx fun a =>
        if amount ≤ a.wallet then { a with wallet := a.wallet - amount } else a }

/-- A schedule of operations applied in order. -/
def run (w : World) (ops : List Op) : World :=
  ops.foldl applyOp w

/-- The five independently guarded shared structures (§4.1 of the spec). -/
inductive Lock where
  | resourceLedger | market | buildingRegistry | agentRoster | currencyLedger
deriving DecidableEq, Repr

/-- A lock acquisition or release, as it appears in a code path.  Reader
versus writer mode is irrelevant to acquisition ordering and is recorded
only in the comments of the transcribed trace. -/
inductive LockEvent where
  | acq (l : Lock)
  | rel (l : Lock)
deriving DecidableEq, Repr

/-- All ordered pairs `(h, l)` such that some acquisition of `l` happens
while `h` is held, given the locks already held. -/
def nestedAcquisitions : List LockEvent → List Lock → List (Lock × Lock)
  | [], _ => []
  | .acq l :: rest, held =>
    (held.map fun h => (h, l)) ++ nestedAcquisitions rest (held ++ [l])
  | .rel l :: rest, held => nestedAcquisitions rest (held.erase l)

/-- Rank of each lock in the global acquisition order the claim states:
Resource Ledger → Market → Building Registry → Agent Roster → Currency
Ledger. -/
def lockRank : Lock → ℕ
  | .resourceLedger => 0
  | .market => 1
  | .buildingRegistry => 2
  | .agentRoster => 3
  | .currencyLedger => 4

/-- A trace follows the fixed global order when every nested acquisition
grabs a strictly later-tier lock than everything already held. -/
def followsGlobalOrder (trace : List LockEvent) : Prop :=
  ∀ p ∈ nestedAcquisitions trace [], lockRank p.1 < lockRank p.2

instance (trace : List LockEvent) : Decidable (followsGlobalOrder trace) :=
  List.decidableBAll _ _

/-- Lock acquisitions and releases of `Simulation::tick_slow`
(`sim_server/src/simulation.rs` lines 839-1556), transcribed in source
order; one iteration of the per-building construction loop is shown.
`lifecycle.get_agents()` clones the roster under a transient read lock
(`crates/agents/src/lifecycle.rs`), `lifecycle.get_agents_mut()` returns a
held write guard; `ResourceManager` methods take the node lock internally
and release it on return. -/
def tickSlowLockTrace : List LockEvent := [
  .acq .agentRoster, .rel .agentRoster,          -- 845 get_agents() clone (read)
  .acq .resourceLedger, .rel .resourceLedger,    -- 968 resources.regenerate() (write)
  .acq .agentRoster,                             -- 971 get_agents_mut() (write)
  .acq .resourceLedger, .rel .resourceLedger,    -- 972 resources.get_nodes() (read), agents held
  .acq .resourceLedger, .rel .resourceLedger,    -- 1012 resources.harvest() (write), agents held
  .rel .agentRoster,                             -- 1043 drop(agents)
  .acq .market,                                  -- 1046 markets.write()
  .acq .agentRoster,                             -- 1047 get_agents_mut() (write), markets held
  .acq .currencyLedger, .rel .currencyLedger,    -- 1116 currency.write() transient
  .rel .agentRoster,                             -- 1140 drop(agents_mut)
  .acq .agentRoster, .rel .agentRoster,          -- 1143 get_agents() clone (read)
  .acq .agentRoster,                             -- 1246 get_agents_mut() (write)
  .acq .currencyLedger,                          -- 1247 currency.write()
  .rel .currencyLedger, .rel .agentRoster,       -- 1295-1296 drops
  .rel .market,                                  -- 1297 drop(markets_lock)
  .acq .agentRoster, .acq .currencyLedger,       -- 1305-1306 wage block
  .rel .currencyLedger, .rel .agentRoster,       -- 1336 end of wage block scope
  .acq .agentRoster, .rel .agentRoster,          -- 1339 get_agents() clone (read)
  .acq .buildingRegistry, .rel .buildingRegistry, -- 1343-1349 buildings.read()
  .acq .agentRoster,                             -- 1353 get_agents_mut() (write)
  .acq .buildingRegistry,                        -- 1356 buildings.write(), agents held
  .acq .market, .rel .market,                    -- 1400-1411 markets.read(), agents and buildings held
  .acq .market,                                  -- 1413 markets.write(), agents and buildings held
  .acq .currencyLedger, .rel .currencyLedger,    -- 1494 currency.write() transient
  .rel .market,                                  -- 1518 end of markets_mut scope
  .rel .buildingRegistry,                        -- 1553 drop(buildings_write)
  .rel .agentRoster]                             -- 1555 drop(agents_mut)

/-- Wallet balance of the first agent with an id, zero when absent. -/
def walletOf (l : List Agent) (i : ℕ) : ℚ :=
  ((l.find? fun a => a.id = i).map Agent.wallet).getD 0

/-- Inventory holding of the first agent with an id, zero when absent. -/
def invOf (l : List Agent) (i : ℕ) (r : ResourceType) : ℤ :=
  ((l.find? fun a => a.id = i).map fun a => Agent.invGet a.inventory r).getD 0

/-- Stocked quantity of a resource at a market, zero when not stocked. -/
def stockOf (m : Market) (r : ResourceType) : ℤ :=
  ((Market.lookupGood m.inventory r).map MarketGood.quantity).getD 0

/-- Current price of a resource at a market, zero when not stocked. -/
def priceAt (m : Market) (r : ResourceType) : ℚ :=
  ((Market.lookupGood m.inventory r).map MarketGood.currentPrice).getD 0

/-- The tentative units one purchase block would take: requested amount
capped by the per-trip cap and the market stock, zero when the building
does not need the resource or the market does not stock it. -/
def takeFor (remaining : List (ResourceType × ℤ)) (r : ResourceType)
    (cap : ℤ) (m : Market) : ℤ :=
  match lookupQty remaining r, Market.lookupGood m.inventory r with
  | some needed, some g => min (min needed cap) g.quantity
  | _, _ => 0

/-- The cost of the tentative units of one purchase block. -/
def costFor (remaining : List (ResourceType × ℤ)) (r : ResourceType)
    (cap : ℤ) (m : Market) : ℚ :=
  priceAt m r * (takeFor remaining r cap m : ℚ)

/-- Units of a resource in a builder's carried load. -/
def carriedAt (c : BuildingResources) (r : ResourceType) : ℤ :=
  match r with
  | .wood => c.wood
  | .stone => c.stone
  | .iron => c.iron
  | _ => 0

/-- Summed quantity of a list of orders, in `ℤ`. -/
def sumQty (l : List TradeOrder) : ℤ :=
  (l.map fun o => (o.quantity : ℤ)).sum

/-- Summed quantity of a list of executions, in `ℤ`. -/
def sumExecQty (l : List TradeExecution) : ℤ :=
  (l.map fun e => (e.quantity : ℤ)).sum

/-- Well-formedness of one stocked good: non-negative stock, positive base
price, and a current price within the clamp bounds
`[0.5 * base, 3 * base]`. -/
def GoodOK (g : MarketGood) : Prop :=
  0 ≤ g.quantity ∧ 0 < g.basePrice ∧
  g.basePrice * (0.5 : ℚ) ≤ g.currentPrice ∧ g.currentPrice ≤ g.basePrice * 3

/-- Well-formedness of an order: a non-negative price. -/
def OrderOK (o : TradeOrder) : Prop :=
  0 ≤ o.pricePerUnit

/-- Well-formedness of an agent: non-negative wallet and inventory. -/
def AgentOK (a : Agent) : Prop :=
  0 ≤ a.wallet ∧ ∀ p ∈ a.inventory, 0 ≤ p.2

/-- Well-formedness of a building: non-negative construction fund and
delivered resources. -/
def BuildingOK (b : Building) : Prop :=
  0 ≤ b.constructionFund ∧ ∀ p ∈ b.currentResources, 0 ≤ p.2

/-- Well-formedness of a market: every good and order well formed. -/
def MarketOK (m : Market) : Prop :=
  (∀ p ∈ m.inventory, GoodOK p.2) ∧
  (∀ o ∈ m.buyOrders, OrderOK o) ∧ (∀ o ∈ m.sellOrders, OrderOK o)

/-- The world invariant: every agent, market and building well formed. -/
def WorldInv (w : World) : Prop :=
  (∀ a ∈ w.agents, AgentOK a) ∧ (∀ m ∈ w.markets, MarketOK m) ∧
  (∀ b ∈ w.buildings, BuildingOK b)

/-- The non-negativity part of the invariant, exactly the quantities the
claims constrain: wallets, construction funds, agent inventories and
market stocks. -/
def NonnegWorld (w : World) : Prop :=
  (∀ a ∈ w.agents, 0 ≤ a.wallet ∧ ∀ p ∈ a.inventory, 0 ≤ p.2) ∧
  (∀ m ∈ w.markets, ∀ p ∈ m.inventory, 0 ≤ p.2.quantity) ∧
  (∀ b ∈ w.buildings, 0 ≤ b.constructionFund)

/-- The price-bounds part of the invariant: every stocked good's current
price lies within `[0.5 * base, 3 * base]`. -/
def PricesInBounds (w : World) : Prop :=
  ∀ m ∈ w.markets, ∀ p ∈ m.inventory,
    p.2.basePrice * (0.5 : ℚ) ≤ p.2.currentPrice ∧
    p.2.currentPrice ≤ p.2.basePrice * 3

/-- Scenario B order book: one buy order for 10 wood at 6.0 and one sell
order for 10 wood at 4.0 on the same market. -/
def c1Market : Market :=
  ⟨[], [⟨1, .wood, 10, 6, .buy⟩], [⟨2, .wood, 10, 4, .sell⟩], 0⟩

/-- Scenario B buyer: agent 1 with a parametric wallet. -/
def c1Buyer (wb : ℚ) : Agent :=
  ⟨1, wb, [], [], .unemployed, .merchant, .trading, none⟩

/-- Scenario B seller: agent 2 holding 10 wood, with a parametric wallet. -/
def c1Seller (ws : ℚ) : Agent :=
  ⟨2, ws, [(.wood, 10)], [], .unemployed, .merchant, .trading, none⟩

/-- Scenario A market: wood stocked at quantity 10 with base and current
price 5.0, and no orders. -/
def c7Market : Market :=
  ⟨[(.wood, ⟨.wood, 10, 5, 5⟩)], [], [], 0⟩

/-- A market stocking only 5 wood at price 5.0, against a building that
still needs 20 wood. -/
def c8Market : Market :=
  ⟨[(.wood, ⟨.wood, 5, 5, 5⟩)], [], [], 0⟩

/-- A buyer with 100 gold and an empty inventory, and a seller holding
only 3 wood: the roster of the conservation counterexample. -/
def c2Agents : List Agent :=
  [⟨1, 100, [], [], .unemployed, .merchant, .trading, none⟩,
   ⟨2, 0, [(.wood, 3)], [], .unemployed, .merchant, .trading, none⟩]

/-- A matched trade of 5 wood at 1.0 per unit between the two agents of
`c2Agents`, as `match_orders` would emit for a sell order larger than the
seller's holdings (orders persist across ticks, so a seller can have sold
down its inventory before settlement). -/
def c2Trade : TradeExecution :=
  ⟨1, 2, .wood, 5, 1⟩

/-- A small well-formed world: one harvester at a market, one market
stocking wood, one partly funded public building. -/
def c3World : World :=
  ⟨[⟨1, 100, [(.wood, 2)], [], .woodcutter, .peasant, .trading, none⟩],
   [⟨[(.wood, ⟨.wood, 10, 5, 5⟩)], [], [], 0⟩],
   [⟨5, .public, 0, [(.wood, 30)], [], 90⟩]⟩

/-- A schedule exercising wages, deposits, matching, price updates, taxes,
a builder purchase, a transfer, a replenishment and a withdrawal. -/
def c3Ops : List Op :=
  [.payWages, .marketDeposit 0 0, .placeBuy 0 0 .wood 2 true, .matchAndSettle 0,
   .updatePricesAt 0, .builderPurchaseAt 0 0 0, .interMarketTransfer 0 0 .wood 1,
   .replenishFund 0, .collectTaxes, .walletWithdraw 0 3]

/-! Supporting lemmas about the association-list and roster helpers. -/

theorem lookupGood_mem {inv : List (ResourceType × MarketGood)} {r : ResourceType}
    {g : MarketGood} (h : Market.lookupGood inv r = some g) : (r, g) ∈ inv := by
  induction inv with
  | nil => simp [Market.lookupGood] at h
  | cons p rest ih =>
    obtain ⟨r', g'⟩ := p
    rw [Market.lookupGood] at h
    by_cases hr : r' = r
    · simp only [if_pos hr] at h
      cases h
      subst hr
      exact List.mem_cons_self _ _
    · simp only [if_neg hr] at h
      exact List.mem_cons_of_mem _ (ih h)

theorem lookupGood_updateGood_ne {inv : List (ResourceType × MarketGood)}
    {r r2 : ResourceType} (f : MarketGood → MarketGood) (h : r2 ≠ r) :
    Market.lookupGood (Market.updateGood inv r f) r2 = Market.lookupGood inv r2 := by
  induction inv with
  | nil => simp [Market.updateGood]
  | cons p rest ih =>
    obtain ⟨r', g'⟩ := p
    rw [Market.updateGood]
    by_cases hr : r' = r
    · subst hr
      rw [if_pos rfl, Market.lookupGood, Market.lookupGood,
        if_neg (fun hc => h hc.symm), if_neg (fun hc => h hc.symm)]
    · rw [if_neg hr, Market.lookupGood, Market.lookupGood]
      by_cases h2 : r' = r2
      · rw [if_pos h2, if_pos h2]
      · rw [if_neg h2, if_neg h2, ih]

theorem lookupGood_updateGood_self {inv : List (ResourceType × MarketGood)}
    {r : ResourceType} (f : MarketGood → MarketGood) :
    Market.lookupGood (Market.updateGood inv r f) r =
      (Market.lookupGood inv r).map f := by
  induction inv with
  | nil => simp [Market.updateGood, Market.lookupGood]
  | cons p rest ih =>
    obtain ⟨r', g'⟩ := p
    rw [Market.updateGood]
    by_cases hr : r' = r
    · rw [if_pos hr, Market.lookupGood, Market.lookupGood, if_pos hr, if_pos hr]
      rfl
    · rw [if_neg hr, Market.lookupGood, Market.lookupGood, if_neg hr, if_neg hr, ih]

theorem mem_updateGood {inv : List (ResourceType × MarketGood)}
    {r : ResourceType} {f : MarketGood → MarketGood}
    {x : ResourceType × MarketGood} (h : x ∈ Market.updateGood inv r f) :
    x ∈ inv ∨ ∃ g, Market.lookupGood inv r = some g ∧ x = (r, f g) := by
  induction inv with
  | nil => simp [Market.updateGood] at h
  | cons p rest ih =>
    obtain ⟨r', g'⟩ := p
    rw [Market.updateGood] at h
    by_cases hr : r' = r
    · rw [if_pos hr] at h
      rcases List.mem_cons.mp h with h1 | h1
      · subst hr
        exact Or.inr ⟨g', by rw [Market.lookupGood, if_pos rfl], h1⟩
      · exact Or.inl (List.mem_cons_of_mem _ h1)
    · rw [if_neg hr] at h
      rcases List.mem_cons.mp h with h1 | h1
      · exact Or.inl (h1 ▸ List.mem_cons_self _ _)
      · rcases ih h1 with h2 | ⟨g, hg, hx⟩
        · exact Or.inl (List.mem_cons_of_mem _ h2)
        · exact Or.inr ⟨g, by rw [Market.lookupGood, if_neg hr]; exact hg, hx⟩

theorem mem_modifyOrInsert {inv : List (ResourceType × MarketGood)}
    {r : ResourceType} {f : MarketGood → MarketGood} {d : MarketGood}
    {x : ResourceType × MarketGood} (h : x ∈ Market.modifyOrInsert inv r f d) :
    x ∈ inv ∨ (∃ g, Market.lookupGood inv r = some g ∧ x = (r, f g)) ∨ x = (r, d) := by
  induction inv with
  | nil =>
    simp only [Market.modifyOrInsert, List.mem_singleton] at h
    exact Or.inr (Or.inr h)
  | cons p rest ih =>
    obtain ⟨r', g'⟩ := p
    rw [Market.modifyOrInsert] at h
    by_cases hr : r' = r
    · rw [if_pos hr] at h
      rcases List.mem_cons.mp h with h1 | h1
      · subst hr
        exact Or.inr (Or.inl ⟨g', by rw [Market.lookupGood, if_pos rfl], h1⟩)
      · exact Or.inl (List.mem_cons_of_mem _ h1)
    · rw [if_neg hr] at h
      rcases List.mem_cons.mp h with h1 | h1
      · exact Or.inl (h1 ▸ List.mem_cons_self _ _)
      · rcases ih h1 with h2 | ⟨g, hg, hx⟩ | h2
        · exact Or.inl (List.mem_cons_of_mem _ h2)
        · exact Or.inr (Or.inl ⟨g, by rw [Market.lookupGood, if_neg hr]; exact hg, hx⟩)
        · exact Or.inr (Or.inr h2)

theorem mem_modAt {l : List α} {i : ℕ} {f : α → α} {x : α}
    (h : x ∈ modAt l i f) : x ∈ l ∨ ∃ y, l[i]? = some y ∧ x = f y := by
  induction l generalizing i with
  | nil => simp [modAt] at h
  | cons a rest ih =>
    cases i with
    | zero =>
      rw [modAt] at h
      rcases List.mem_cons.mp h with h1 | h1
      · exact Or.inr ⟨a, by simp, h1⟩
      · exact Or.inl (List.mem_cons_of_mem _ h1)
    | succ n =>
      rw [modAt] at h
      rcases List.mem_cons.mp h with h1 | h1
      · exact Or.inl (h1 ▸ List.mem_cons_self _ _)
      · rcases ih h1 with h2 | ⟨y, hy, hx⟩
        · exact Or.inl (List.mem_cons_of_mem _ h2)
        · exact Or.inr ⟨y, by simpa using hy, hx⟩

theorem mem_updateFirst {p : Agent → Bool} {f : Agent → Agent}
    {l : List Agent} {x : Agent} (h : x ∈ updateFirst p f l) :
    x ∈ l ∨ ∃ b, l.find? p = some b ∧ x = f b := by
  induction l with
  | nil => simp [updateFirst] at h
  | cons a rest ih =>
    rw [updateFirst] at h
    by_cases hp : p a
    · rw [if_pos hp] at h
      rcases List.mem_cons.mp h with h1 | h1
      · exact Or.inr ⟨a, by rw [List.find?_cons_of_pos _ hp], h1⟩
      · exact Or.inl (List.mem_cons_of_mem _ h1)
    · rw [if_neg hp] at h
      rcases List.mem_cons.mp h with h1 | h1
      · exact Or.inl (h1 ▸ List.mem_cons_self _ _)
      · rcases ih h1 with h2 | ⟨b, hb, hx⟩
        · exact Or.inl (List.mem_cons_of_mem _ h2)
        · refine Or.inr ⟨b, ?_, hx⟩
          rw [List.find?_cons_of_neg _ (by simpa using hp)]
          exact hb

theorem updateFirst_forall {P : Agent → Prop} {p : Agent → Bool}
    {f : Agent → Agent} {l : List Agent} (h : ∀ a ∈ l, P a)
    (hf : ∀ b, l.find? p = some b → P (f b)) :
    ∀ a ∈ updateFirst p f l, P a := by
  intro a ha
  rcases mem_updateFirst ha with h1 | ⟨b, hb, hx⟩
  · exact h a h1
  · exact hx ▸ hf b hb

theorem find?_updateFirst_self {i : ℕ} {f : Agent → Agent} {l : List Agent}
    {b : Agent} (hid : ∀ a, (f a).id = a.id)
    (h : l.find? (fun a => a.id = i) = some b) :
    (updateFirst (fun a => a.id = i) f l).find? (fun a => a.id = i) = some (f b) := by
  induction l with
  | nil => simp at h
  | cons a rest ih =>
    by_cases hp : a.id = i
    · rw [List.find?_cons_of_pos _ (by simpa using hp)] at h
      cases h
      rw [updateFirst, if_pos (by simpa using hp),
        List.find?_cons_of_pos _ (by simp [hid, hp])]
    · rw [List.find?_cons_of_neg _ (by simpa using hp)] at h
      rw [updateFirst, if_neg (by simpa using hp),
        List.find?_cons_of_neg _ (by simpa using hp)]
      exact ih h

theorem find?_updateFirst_ne {i j : ℕ} {f : Agent → Agent} {l : List Agent}
    (hid : ∀ a, (f a).id = a.id) (hne : i ≠ j) :
    (updateFirst (fun a => a.id = i) f l).find? (fun a => a.id = j) =
      l.find? (fun a => a.id = j) := by
  induction l with
  | nil => simp [updateFirst]
  | cons a rest ih =>
    by_cases hp : a.id = i
    · rw [updateFirst, if_pos (by simpa using hp),
        List.find?_cons_of_neg _ (by simp [hid, hp, hne]),
        List.find?_cons_of_neg _ (by simp [hp, hne])]
    · rw [updateFirst, if_neg (by simpa using hp)]
      by_cases hj : a.id = j
      · rw [List.find?_cons_of_pos _ (by simpa using hj),
          List.find?_cons_of_pos _ (by simpa using hj)]
      · rw [List.find?_cons_of_neg _ (by simpa using hj),
          List.find?_cons_of_neg _ (by simpa using hj)]
        exact ih

theorem map_wallet_updateFirst {p : Agent → Bool} {f : Agent → Agent}
    {l : List Agent} (hw : ∀ a, (f a).wallet = a.wallet) :
    (updateFirst p f l).map Agent.wallet = l.map Agent.wallet := by
  induction l with
  | nil => rfl
  | cons a rest ih =>
    rw [updateFirst]
    by_cases hp : p a
    · rw [if_pos hp]
      simp [hw]
    · rw [if_neg hp]
      simp [ih]

theorem map_wallet_modAt {l : List Agent} {i : ℕ} {f : Agent → Agent}
    (hw : ∀ a, (f a).wallet = a.wallet) :
    (modAt l i f).map Agent.wallet = l.map Agent.wallet := by
  induction l generalizing i with
  | nil => rfl
  | cons a rest ih =>
    cases i with
    | zero => rw [modAt]; simp [hw]
    | succ n => rw [modAt]; simp [ih]

theorem invGet_nonneg {inv : List (ResourceType × ℤ)} {r : ResourceType}
    (h : ∀ p ∈ inv, 0 ≤ p.2) : 0 ≤ Agent.invGet inv r := by
  induction inv with
  | nil => simp [Agent.invGet]
  | cons p rest ih =>
    obtain ⟨r', q⟩ := p
    rw [Agent.invGet]
    by_cases hr : r' = r
    · rw [if_pos hr]
      exact h (r', q) (List.mem_cons_self _ _)
    · rw [if_neg hr]
      exact ih fun x hx => h x (List.mem_cons_of_mem _ hx)

theorem invAdd_nonneg {inv : List (ResourceType × ℤ)} {r : ResourceType}
    {q : ℤ} (h : ∀ p ∈ inv, 0 ≤ p.2) (hq : 0 ≤ q) :
    ∀ p ∈ Agent.invAdd inv r q, 0 ≤ p.2 := by
  induction inv with
  | nil =>
    intro p hp
    simp only [Agent.invAdd, List.mem_singleton] at hp
    simp [hp, hq]
  | cons x rest ih =>
    obtain ⟨r', q'⟩ := x
    intro p hp
    rw [Agent.invAdd] at hp
    by_cases hr : r' = r
    · rw [if_pos hr] at hp
      rcases List.mem_cons.mp hp with h1 | h1
      · have := h (r', q') (List.mem_cons_self _ _)
        simp only [h1]
        simp only at this
        positivity
      · exact h p (List.mem_cons_of_mem _ h1)
    · rw [if_neg hr] at hp
      rcases List.mem_cons.mp hp with h1 | h1
      · exact h1 ▸ h (r', q') (List.mem_cons_self _ _)
      · exact ih (fun x hx => h x (List.mem_cons_of_mem _ hx)) p h1

theorem invSatSub_nonneg {inv : List (ResourceType × ℤ)} {r : ResourceType}
    {q : ℤ} (h : ∀ p ∈ inv, 0 ≤ p.2) :
    ∀ p ∈ Agent.invSatSub inv r q, 0 ≤ p.2 := by
  induction inv with
  | nil => intro p hp; simp [Agent.invSatSub] at hp
  | cons x rest ih =>
    obtain ⟨r', q'⟩ := x
    intro p hp
    rw [Agent.invSatSub] at hp
    by_cases hr : r' = r
    · rw [if_pos hr] at hp
      rcases List.mem_cons.mp hp with h1 | h1
      · simp [h1]
      · exact h p (List.mem_cons_of_mem _ h1)
    · rw [if_neg hr] at hp
      rcases List.mem_cons.mp hp with h1 | h1
      · exact h1 ▸ h (r', q') (List.mem_cons_self _ _)
      · exact ih (fun x hx => h x (List.mem_cons_of_mem _ hx)) p h1

theorem clampQ_mem {lo hi x : ℚ} (h : lo ≤ hi) :
    lo ≤ Market.clampQ lo hi x ∧ Market.clampQ lo hi x ≤ hi := by
  rw [Market.clampQ]
  split_ifs with h1 h2
  · exact ⟨le_refl _, h⟩
  · exact ⟨h, le_refl _⟩
  · exact ⟨le_of_not_lt h1, le_of_not_lt h2⟩

theorem basePriceOf_pos (r : ResourceType) : 0 < basePriceOf r := by
  cases r <;> norm_num [basePriceOf]

/-! Supporting lemmas about the order-matching loop. -/

theorem findMatch_spec {b : TradeOrder} {sells : List TradeOrder} {j : ℕ}
    {s : TradeOrder} (h : Market.findMatch b sells = some (j, s)) :
    sells[j]? = some s ∧ Market.ordersMatch b s = true := by
  induction sells generalizing j with
  | nil => simp [Market.findMatch] at h
  | cons x rest ih =>
    rw [Market.findMatch] at h
    by_cases hm : Market.ordersMatch b x
    · rw [if_pos hm] at h
      cases h
      exact ⟨by simp, hm⟩
    · rw [if_neg hm] at h
      cases hf : Market.findMatch b rest with
      | none => rw [hf] at h; simp at h
      | some p =>
        obtain ⟨j', s'⟩ := p
        rw [hf] at h
        simp only [Option.map_some'] at h
        cases h
        obtain ⟨h1, h2⟩ := ih hf
        exact ⟨by simpa using h1, h2⟩

theorem sumQty_cons (o : TradeOrder) (l : List TradeOrder) :
    sumQty (o :: l) = (o.quantity : ℤ) + sumQty l := by
  simp [sumQty]

theorem sumQty_set {l : List TradeOrder} {i : ℕ} {b : TradeOrder}
    (a : TradeOrder) (h : l[i]? = some b) :
    sumQty (l.set i a) = sumQty l - (b.quantity : ℤ) + (a.quantity : ℤ) := by
  induction l generalizing i with
  | nil => simp at h
  | cons x rest ih =>
    cases i with
    | zero =>
      simp only [List.getElem?_cons_zero, Option.some.injEq] at h
      subst h
      simp only [List.set, sumQty_cons]
      ring
    | succ n =>
      simp only [List.getElem?_cons_succ] at h
      simp only [List.set, sumQty_cons, ih h]
      ring

theorem sumQty_eraseIdx {l : List TradeOrder} {i : ℕ} {b : TradeOrder}
    (h : l[i]? = some b) :
    sumQty (l.eraseIdx i) = sumQty l - (b.quantity : ℤ) := by
  induction l generalizing i with
  | nil => simp at h
  | cons x rest ih =>
    cases i with
    | zero =>
      simp only [List.getElem?_cons_zero, Option.some.injEq] at h
      subst h
      simp only [List.eraseIdx, sumQty_cons]
      ring
    | succ n =>
      simp only [List.getElem?_cons_succ] at h
      simp only [List.eraseIdx, sumQty_cons, ih h]
      ring

theorem sumExecQty_append (l : List TradeExecution) (e : TradeExecution) :
    sumExecQty (l ++ [e]) = sumExecQty l + (e.quantity : ℤ) := by
  simp [sumExecQty]

theorem matchLoop_step {n : ℕ} {buys : List TradeOrder} {i : ℕ}
    {sells : List TradeOrder} {execs : List TradeExecution} {b : TradeOrder}
    {j : ℕ} {s : TradeOrder} (hb : buys[i]? = some b)
    (hf : Market.findMatch b sells = some (j, s)) :
    Market.matchLoop (n + 1) buys i sells execs =
      Market.matchLoop n
        (if b.quantity - min b.quantity s.quantity = 0 then buys.eraseIdx i
         else buys.set i { b with quantity := b.quantity - min b.quantity s.quantity })
        (if (if s.quantity - min b.quantity s.quantity = 0 then sells.eraseIdx j
             else sells.set j { s with quantity := s.quantity - min b.quantity s.quantity }).length ≤
            (if s.quantity - min b.quantity s.quantity = 0 then j else j + 1) then
          (if b.quantity - min b.quantity s.quantity = 0 then i else i + 1) + 1
         else (if b.quantity - min b.quantity s.quantity = 0 then i else i + 1))
        (if s.quantity - min b.quantity s.quantity = 0 then sells.eraseIdx j
         else sells.set j { s with quantity := s.quantity - min b.quantity s.quantity })
        (execs ++ [⟨b.agentId, s.agentId, b.resource, min b.quantity s.quantity,
          (b.pricePerUnit + s.pricePerUnit) / 2⟩]) := by
  simp only [Market.matchLoop, hb, hf]

theorem matchLoop_conserves (fuel : ℕ) :
    ∀ (buys : List TradeOrder) (i : ℕ) (sells : List TradeOrder)
      (execs : List TradeExecution),
      sumQty (Market.matchLoop fuel buys i sells execs).1 +
        sumExecQty (Market.matchLoop fuel buys i sells execs).2.2 =
        sumQty buys + sumExecQty execs ∧
      sumQty (Market.matchLoop fuel buys i sells execs).2.1 +
        sumExecQty (Market.matchLoop fuel buys i sells execs).2.2 =
        sumQty sells + sumExecQty execs := by
  induction fuel with
  | zero => intro buys i sells execs; simp [Market.matchLoop]
  | succ n ih =>
    intro buys i sells execs
    cases hb : buys[i]? with
    | none => simp [Market.matchLoop, hb]
    | some b =>
      cases hf : Market.findMatch b sells with
      | none =>
        simp only [Market.matchLoop, hb, hf]
        exact ih buys (i + 1) sells execs
      | some js =>
        obtain ⟨j, s⟩ := js
        obtain ⟨hj, _⟩ := findMatch_spec hf
        rw [matchLoop_step hb hf]
        have hqb : min b.quantity s.quantity ≤ b.quantity := min_le_left _ _
        have hqs : min b.quantity s.quantity ≤ s.quantity := min_le_right _ _
        obtain ⟨ih1, ih2⟩ := ih
          (if b.quantity - min b.quantity s.quantity = 0 then buys.eraseIdx i
           else buys.set i { b with quantity := b.quantity - min b.quantity s.quantity })
          (if (if s.quantity - min b.quantity s.quantity = 0 then sells.eraseIdx j
               else sells.set j { s with quantity := s.quantity - min b.quantity s.quantity }).length ≤
              (if s.quantity - min b.quantity s.quantity = 0 then j else j + 1) then
            (if b.quantity - min b.quantity s.quantity = 0 then i else i + 1) + 1
           else (if b.quantity - min b.quantity s.quantity = 0 then i else i + 1))
          (if s.quantity - min b.quantity s.quantity = 0 then sells.eraseIdx j
           else sells.set j { s with quantity := s.quantity - min b.quantity s.quantity })
          (execs ++ [⟨b.agentId, s.agentId, b.resource, min b.quantity s.quantity,
            (b.pricePerUnit + s.pricePerUnit) / 2⟩])
        rw [ih1, ih2]
        have he : sumExecQty (execs ++ [⟨b.agentId, s.agentId, b.resource,
            min b.quantity s.quantity, (b.pricePerUnit + s.pricePerUnit) / 2⟩]) =
            sumExecQty execs + ((min b.quantity s.quantity : ℕ) : ℤ) := by
          rw [sumExecQty_append]
        rw [he]
        constructor
        · by_cases hbq : b.quantity - min b.quantity s.quantity = 0
          · rw [if_pos hbq, sumQty_eraseIdx hb]
            omega
          · rw [if_neg hbq, sumQty_set _ hb]
            dsimp only
            omega
        · by_cases hsq : s.quantity - min b.quantity s.quantity = 0
          · rw [if_pos hsq, sumQty_eraseIdx hj]
            omega
          · rw [if_neg hsq, sumQty_set _ hj]
            dsimp only
            omega

theorem matchLoop_ok (fuel : ℕ) :
    ∀ (buys : List TradeOrder) (i : ℕ) (sells : List TradeOrder)
      (execs : List TradeExecution),
      (∀ o ∈ buys, 0 ≤ o.pricePerUnit) → (∀ o ∈ sells, 0 ≤ o.pricePerUnit) →
      (∀ e ∈ execs, 0 ≤ e.pricePerUnit) →
      (∀ o ∈ (Market.matchLoop fuel buys i sells execs).1, 0 ≤ o.pricePerUnit) ∧
      (∀ o ∈ (Market.matchLoop fuel buys i sells execs).2.1, 0 ≤ o.pricePerUnit) ∧
      (∀ e ∈ (Market.matchLoop fuel buys i sells execs).2.2, 0 ≤ e.pricePerUnit) := by
  induction fuel with
  | zero =>
    intro buys i sells execs h1 h2 h3
    simpa [Market.matchLoop] using ⟨h1, h2, h3⟩
  | succ n ih =>
    intro buys i sells execs h1 h2 h3
    cases hb : buys[i]? with
    | none =>
      simp only [Market.matchLoop, hb]
      exact ⟨h1, h2, h3⟩
    | some b =>
      have hbm : b ∈ buys := by
        have := List.getElem?_eq_some_iff.mp hb
        obtain ⟨hlt, hget⟩ := this
        exact hget ▸ List.getElem_mem _
      cases hf : Market.findMatch b sells with
      | none =>
        simp only [Market.matchLoop, hb, hf]
        exact ih buys (i + 1) sells execs h1 h2 h3
      | some js =>
        obtain ⟨j, s⟩ := js
        obtain ⟨hj, _⟩ := findMatch_spec hf
        have hsm : s ∈ sells := by
          have := List.getElem?_eq_some_iff.mp hj
          obtain ⟨hlt, hget⟩ := this
          exact hget ▸ List.getElem_mem _
        rw [matchLoop_step hb hf]
        have hB : ∀ o ∈ (if b.quantity - min b.quantity s.quantity = 0 then
            buys.eraseIdx i
            else buys.set i { b with quantity := b.quantity - min b.quantity s.quantity }),
            0 ≤ o.pricePerUnit := by
          split_ifs with hc
          · intro o ho
            exact h1 o ((buys.eraseIdx_sublist i).subset ho)
          · intro o ho
            rcases List.mem_or_eq_of_mem_set ho with h4 | h4
            · exact h1 o h4
            · subst h4
              exact h1 b hbm
        have hS : ∀ o ∈ (if s.quantity - min b.quantity s.quantity = 0 then
            sells.eraseIdx j
            else sells.set j { s with quantity := s.quantity - min b.quantity s.quantity }),
            0 ≤ o.pricePerUnit := by
          split_ifs with hc
          · intro o ho
            exact h2 o ((sells.eraseIdx_sublist j).subset ho)
          · intro o ho
            rcases List.mem_or_eq_of_mem_set ho with h4 | h4
            · exact h2 o h4
            · subst h4
              exact h2 s hsm
        have hE : ∀ e ∈ execs ++ [(⟨b.agentId, s.agentId, b.resource,
            min b.quantity s.quantity,
            (b.pricePerUnit + s.pricePerUnit) / 2⟩ : TradeExecution)],
            0 ≤ e.pricePerUnit := by
          intro e he
          rcases List.mem_append.mp he with h4 | h4
          · exact h3 e h4
          · rw [List.mem_singleton.mp h4]
            have := div_nonneg (add_nonneg (h1 b hbm) (h2 s hsm)) (by norm_num : (0:ℚ) ≤ 2)
            simpa using this
        exact ih _ _ _ _ hB hS hE

theorem matchOrders_conserves (m : Market) :
    sumQty (m.matchOrders).1.buyOrders + sumExecQty (m.matchOrders).2 =
      sumQty m.buyOrders ∧
    sumQty (m.matchOrders).1.sellOrders + sumExecQty (m.matchOrders).2 =
      sumQty m.sellOrders := by
  have h := matchLoop_conserves m.buyOrders.length m.buyOrders 0 m.sellOrders []
  simpa [Market.matchOrders, sumExecQty] using h

theorem matchOrders_ok (m : Market)
    (hb : ∀ o ∈ m.buyOrders, 0 ≤ o.pricePerUnit)
    (hs : ∀ o ∈ m.sellOrders, 0 ≤ o.pricePerUnit) :
    (∀ o ∈ (m.matchOrders).1.buyOrders, 0 ≤ o.pricePerUnit) ∧
    (∀ o ∈ (m.matchOrders).1.sellOrders, 0 ≤ o.pricePerUnit) ∧
    (∀ e ∈ (m.matchOrders).2, 0 ≤ e.pricePerUnit) := by
  have h := matchLoop_ok m.buyOrders.length m.buyOrders 0 m.sellOrders []
    hb hs (by intro e he; simp at he)
  exact h

/-! Supporting lemmas about trade settlement. -/

theorem settleTrade_ok {agents : List Agent} {t : TradeExecution}
    (hp : 0 ≤ t.pricePerUnit) (h : ∀ a ∈ agents, AgentOK a) :
    ∀ a ∈ settleTrade agents t, AgentOK a := by
  cases hf : agents.find? (fun a => a.id = t.buyerId) with
  | none => simp only [settleTrade, hf]; exact h
  | some buyer =>
    simp only [settleTrade, hf]
    have hcost : 0 ≤ t.pricePerUnit * (t.quantity : ℚ) :=
      mul_nonneg hp (by positivity)
    by_cases hc : t.pricePerUnit * (t.quantity : ℚ) ≤ buyer.wallet
    · rw [if_pos hc]
      have h1 : ∀ a ∈ updateFirst (fun a => a.id = t.buyerId)
          (fun a => { a with wallet := a.wallet - t.pricePerUnit * (t.quantity : ℚ),
                             inventory := Agent.invAdd a.inventory t.resource (t.quantity : ℤ) })
          agents, AgentOK a := by
        refine updateFirst_forall h ?_
        intro b hbf
        rw [hf] at hbf
        cases hbf
        obtain ⟨hw, hi⟩ := h buyer (List.mem_of_find?_eq_some hf)
        exact ⟨by simpa using sub_nonneg.mpr hc,
          invAdd_nonneg hi (by positivity)⟩
      cases hf2 : (updateFirst (fun a => a.id = t.buyerId)
          (fun a => { a with wallet := a.wallet - t.pricePerUnit * (t.quantity : ℚ),
                             inventory := Agent.invAdd a.inventory t.resource (t.quantity : ℤ) })
          agents).find? (fun a => a.id = t.sellerId) with
      | none => simp only [hf2]; exact h1
      | some seller =>
        simp only [hf2]
        refine updateFirst_forall h1 ?_
        intro b _
        obtain ⟨hw, hi⟩ := h1 b (List.mem_of_find?_eq_some (by assumption))
        exact ⟨by positivity, invSatSub_nonneg hi⟩
    · rw [if_neg hc]
      exact h

theorem settleTrades_ok {ts : List TradeExecution} :
    ∀ {agents : List Agent}, (∀ e ∈ ts, 0 ≤ e.pricePerUnit) →
    (∀ a ∈ agents, AgentOK a) → ∀ a ∈ settleTrades agents ts, AgentOK a := by
  induction ts with
  | nil => intro agents _ h; exact h
  | cons e rest ih =>
    intro agents hp h
    have h1 := settleTrade_ok (hp e (List.mem_cons_self _ _)) h
    exact ih (fun x hx => hp x (List.mem_cons_of_mem _ hx)) h1

/-! Supporting lemmas about the builder purchase blocks. -/

theorem purchaseStep_take (remaining : List (ResourceType × ℤ)) (fund : ℚ)
    (r : ResourceType) (cap : ℤ) (m : Market) (tc : ℚ) :
    (purchaseStep remaining fund r cap m tc).2.1 =
      if 0 < takeFor remaining r cap m ∧ costFor remaining r cap m ≤ fund - tc
      then takeFor remaining r cap m else 0 := by
  cases hq : lookupQty remaining r with
  | none => simp [purchaseStep, takeFor, costFor, priceAt, hq]
  | some needed =>
    cases hg : Market.lookupGood m.inventory r with
    | none => simp [purchaseStep, takeFor, costFor, priceAt, hq, hg]
    | some g =>
      simp only [purchaseStep, takeFor, costFor, priceAt, hq, hg, Option.map_some',
        Option.getD_some]
      by_cases ht : 0 < min (min needed cap) g.quantity
      · rw [if_pos ht]
        by_cases hcst : g.currentPrice * ((min (min needed cap) g.quantity : ℤ) : ℚ) ≤ fund - tc
        · rw [if_pos hcst, if_pos ⟨ht, hcst⟩]
        · rw [if_neg hcst, if_neg (fun hcon => hcst hcon.2)]
      · rw [if_neg ht, if_neg (fun hcon => ht hcon.1)]

theorem purchaseStep_cost (remaining : List (ResourceType × ℤ)) (fund : ℚ)
    (r : ResourceType) (cap : ℤ) (m : Market) (tc : ℚ) :
    (purchaseStep remaining fund r cap m tc).2.2 =
      tc + priceAt m r * ((purchaseStep remaining fund r cap m tc).2.1 : ℚ) := by
  cases hq : lookupQty remaining r with
  | none => simp [purchaseStep, priceAt, hq]
  | some needed =>
    cases hg : Market.lookupGood m.inventory r with
    | none => simp [purchaseStep, priceAt, hq, hg]
    | some g =>
      simp only [purchaseStep, priceAt, hq, hg, Option.map_some', Option.getD_some]
      by_cases ht : 0 < min (min needed cap) g.quantity
      · rw [if_pos ht]
        by_cases hcst : g.currentPrice * ((min (min needed cap) g.quantity : ℤ) : ℚ) ≤ fund - tc
        · rw [if_pos hcst]
        · rw [if_neg hcst]
          simp
      · rw [if_neg ht]
        simp

theorem purchaseStep_tcLe {remaining : List (ResourceType × ℤ)} {fund : ℚ}
    {r : ResourceType} {cap : ℤ} {m : Market} {tc : ℚ} (h : tc ≤ fund) :
    (purchaseStep remaining fund r cap m tc).2.2 ≤ fund := by
  cases hq : lookupQty remaining r with
  | none => simpa [purchaseStep, hq] using h
  | some needed =>
    cases hg : Market.lookupGood m.inventory r with
    | none => simpa [purchaseStep, hq, hg] using h
    | some g =>
      simp only [purchaseStep, hq, hg]
      by_cases ht : 0 < min (min needed cap) g.quantity
      · rw [if_pos ht]
        by_cases hcst : g.currentPrice * ((min (min needed cap) g.quantity : ℤ) : ℚ) ≤ fund - tc
        · rw [if_pos hcst]
          dsimp only
          linarith
        · rw [if_neg hcst]
          exact h
      · rw [if_neg ht]
        exact h

theorem purchaseStep_lookup_ne {remaining : List (ResourceType × ℤ)} {fund : ℚ}
    {r r2 : ResourceType} {cap : ℤ} {m : Market} {tc : ℚ} (h : r2 ≠ r) :
    Market.lookupGood (purchaseStep remaining fund r cap m tc).1.inventory r2 =
      Market.lookupGood m.inventory r2 := by
  cases hq : lookupQty remaining r with
  | none => simp [purchaseStep, hq]
  | some needed =>
    cases hg : Market.lookupGood m.inventory r with
    | none => simp [purchaseStep, hq, hg]
    | some g =>
      simp only [purchaseStep, hq, hg]
      by_cases ht : 0 < min (min needed cap) g.quantity
      · rw [if_pos ht]
        by_cases hcst : g.currentPrice * ((min (min needed cap) g.quantity : ℤ) : ℚ) ≤ fund - tc
        · rw [if_pos hcst]
          exact lookupGood_updateGood_ne _ h
        · rw [if_neg hcst]
      · rw [if_neg ht]

theorem purchaseStep_priceAt (remaining : List (ResourceType × ℤ)) (fund : ℚ)
    (r r2 : ResourceType) (cap : ℤ) (m : Market) (tc : ℚ) :
    priceAt (purchaseStep remaining fund r cap m tc).1 r2 = priceAt m r2 := by
  by_cases h : r2 = r
  · subst h
    cases hq : lookupQty remaining r2 with
    | none => simp [purchaseStep, hq]
    | some needed =>
      cases hg : Market.lookupGood m.inventory r2 with
      | none => simp [purchaseStep, hq, hg]
      | some g =>
        simp only [purchaseStep, hq, hg]
        by_cases ht : 0 < min (min needed cap) g.quantity
        · rw [if_pos ht]
          by_cases hcst : g.currentPrice * ((min (min needed cap) g.quantity : ℤ) : ℚ) ≤ fund - tc
          · rw [if_pos hcst]
            dsimp only [priceAt]
            rw [lookupGood_updateGood_self]
            rw [hg]
            rfl
          · rw [if_neg hcst]
        · rw [if_neg ht]
  · rw [priceAt, priceAt, purchaseStep_lookup_ne h]

theorem purchaseStep_stock (remaining : List (ResourceType × ℤ)) (fund : ℚ)
    (r : ResourceType) (cap : ℤ) (m : Market) (tc : ℚ) :
    stockOf (purchaseStep remaining fund r cap m tc).1 r =
      stockOf m r - (purchaseStep remaining fund r cap m tc).2.1 := by
  cases hq : lookupQty remaining r with
  | none => simp [purchaseStep, hq]
  | some needed =>
    cases hg : Market.lookupGood m.inventory r with
    | none => simp [purchaseStep, hq, hg]
    | some g =>
      simp only [purchaseStep, hq, hg]
      by_cases ht : 0 < min (min needed cap) g.quantity
      · rw [if_pos ht]
        by_cases hcst : g.currentPrice * ((min (min needed cap) g.quantity : ℤ) : ℚ) ≤ fund - tc
        · rw [if_pos hcst]
          dsimp only [stockOf]
          rw [lookupGood_updateGood_self, hg]
          simp
        · rw [if_neg hcst]
          simp [stockOf, hg]
      · rw [if_neg ht]
        simp [stockOf, hg]

theorem purchaseStep_orders (remaining : List (ResourceType × ℤ)) (fund : ℚ)
    (r : ResourceType) (cap : ℤ) (m : Market) (tc : ℚ) :
    (purchaseStep remaining fund r cap m tc).1.buyOrders = m.buyOrders ∧
    (purchaseStep remaining fund r cap m tc).1.sellOrders = m.sellOrders := by
  cases hq : lookupQty remaining r with
  | none => simp [purchaseStep, hq]
  | some needed =>
    cases hg : Market.lookupGood m.inventory r with
    | none => simp [purchaseStep, hq, hg]
    | some g =>
      simp only [purchaseStep, hq, hg]
      by_cases ht : 0 < min (min needed cap) g.quantity
      · rw [if_pos ht]
        by_cases hcst : g.currentPrice * ((min (min needed cap) g.quantity : ℤ) : ℚ) ≤ fund - tc
        · rw [if_pos hcst]
          exact ⟨rfl, rfl⟩
        · rw [if_neg hcst]
          exact ⟨rfl, rfl⟩
      · rw [if_neg ht]
        exact ⟨rfl, rfl⟩

theorem purchaseStep_goods_ok {remaining : List (ResourceType × ℤ)} {fund : ℚ}
    {r : ResourceType} {cap : ℤ} {m : Market} {tc : ℚ}
    (h : ∀ p ∈ m.inventory, GoodOK p.2) :
    ∀ p ∈ (purchaseStep remaining fund r cap m tc).1.inventory, GoodOK p.2 := by
  cases hq : lookupQty remaining r with
  | none => simpa [purchaseStep, hq] using h
  | some needed =>
    cases hg : Market.lookupGood m.inventory r with
    | none => simpa [purchaseStep, hq, hg] using h
    | some g =>
      simp only [purchaseStep, hq, hg]
      by_cases ht : 0 < min (min needed cap) g.quantity
      · rw [if_pos ht]
        by_cases hcst : g.currentPrice * ((min (min needed cap) g.quantity : ℤ) : ℚ) ≤ fund - tc
        · rw [if_pos hcst]
          intro p hp
          rcases mem_updateGood hp with h1 | ⟨g2, hg2, hp2⟩
          · exact h p h1
          · rw [hg] at hg2
            cases hg2
            subst hp2
            obtain ⟨hq1, hq2, hq3, hq4⟩ := h (r, g) (lookupGood_mem hg)
            refine ⟨?_, hq2, hq3, hq4⟩
            have : min (min needed cap) g.quantity ≤ g.quantity := min_le_right _ _
            simp only
            omega
        · rw [if_neg hcst]
          exact h
      · rw [if_neg ht]
        exact h

/-! Claim theorems. -/

/-- C1: on a market holding exactly one buy order for 10 wood at 6.0 and
one sell order for 10 wood at 4.0, `match_orders` returns exactly one
trade of quantity 10 at the midpoint price 5.0 and removes both orders;
settling that trade against a buyer who can afford it debits the buyer's
wallet by exactly 50.0 and credits the seller's wallet by exactly 50.0. -/
theorem c1_scenarioB (wb ws : ℚ) (h : 50 ≤ wb) :
    c1Market.matchOrders.2 = [⟨1, 2, .wood, 10, 5⟩] ∧
    c1Market.matchOrders.1.buyOrders = [] ∧
    c1Market.matchOrders.1.sellOrders = [] ∧
    (settleTrades [c1Buyer wb, c1Seller ws] c1Market.matchOrders.2).map Agent.wallet
      = [wb - 50, ws + 50] := by
  have hm : c1Market.matchOrders.2 = [⟨1, 2, .wood, 10, 5⟩] := by
    norm_num [c1Market, Market.matchOrders, Market.matchLoop, Market.findMatch,
      Market.ordersMatch]
  refine ⟨hm, ?_, ?_, ?_⟩
  · norm_num [c1Market, Market.matchOrders, Market.matchLoop, Market.findMatch,
      Market.ordersMatch]
  · norm_num [c1Market, Market.matchOrders, Market.matchLoop, Market.findMatch,
      Market.ordersMatch]
  · rw [hm]
    simp [settleTrades, settleTrade, c1Buyer, c1Seller, updateFirst, Agent.invAdd,
      Agent.invSatSub]
    have h2 : (5 : ℚ) * 10 ≤ wb := by linarith
    rw [if_pos h2]
    norm_num

/-- C1 witness: the scenario instantiated with a buyer wallet of 100.0 and
a seller wallet of 0.0. -/
theorem c1_scenarioB_witness :
    (50 : ℚ) ≤ 100 ∧
    (settleTrades [c1Buyer 100, c1Seller 0] c1Market.matchOrders.2).map Agent.wallet
      = [50, 50] := by
  refine ⟨by norm_num, ?_⟩
  have h := c1_scenarioB 100 0 (by norm_num)
  have h4 := h.2.2.2
  norm_num at h4
  exact h4

/-- C5: a builder purchase spending a building's construction fund leaves
every agent's wallet (including the purchasing builder's own) unchanged. -/
theorem c5_fund_isolation (w : World) (bIdx mIdx aIdx : ℕ) :
    (applyOp w (.builderPurchaseAt bIdx mIdx aIdx)).agents.map Agent.wallet =
      w.agents.map Agent.wallet := by
  cases hbu : w.buildings[bIdx]? with
  | none => simp only [applyOp, hbu]
  | some b =>
    cases hmk : w.markets[mIdx]? with
    | none => simp only [applyOp, hbu, hmk]
    | some m =>
      by_cases hrem : b.remainingResources = []
      · simp only [applyOp, hbu, hmk, if_pos hrem]
      · simp only [applyOp, hbu, hmk, if_neg hrem]
        refine map_wallet_modAt ?_
        intro a
        by_cases hc : 0 < (builderPurchase b.constructionFund b.remainingResources m b.id).carried.wood ∨
            0 < (builderPurchase b.constructionFund b.remainingResources m b.id).carried.stone ∨
            0 < (builderPurchase b.constructionFund b.remainingResources m b.id).carried.iron
        · rw [if_pos hc]
        · rw [if_neg hc]

/-- C7 counterexample: a market stocking 10 wood at base price 5.0 and
current price 5.0 with no buy orders; `update_prices` moves the wood price
to 4.0 (base times 0.8), not 5.0 as the claim states. -/
theorem c7_counterexample :
    Market.lookupGood (Market.updatePrices c7Market).inventory .wood =
      some ⟨.wood, 10, 5, 4⟩ ∧ (4 : ℚ) ≠ 5 := by
  constructor
  · norm_num [c7Market, Market.updatePrices, Market.repriceGood, Market.demandFor,
      Market.clampQ, Market.lookupGood]
  · norm_num

/-- C7 amended: for a market stocking a positive quantity of wood at base
price 5.0 and any current price, with no outstanding wood buy orders,
`update_prices` sets the current wood price to 4.0 = 5.0 × (0.8 + 0 × 0.4)
(zero demand pressure pulls the price to 80% of base, within the clamp
bounds), rather than leaving it at 5.0. -/
theorem c7_amended (q : ℤ) (c : ℚ) (buys sells : List TradeOrder) (n : ℕ)
    (hq : 0 < q) (hb : ∀ o ∈ buys, o.resource ≠ .wood) :
    Market.lookupGood
      (Market.updatePrices ⟨[(.wood, ⟨.wood, q, 5, c⟩)], buys, sells, n⟩).inventory .wood
      = some ⟨.wood, q, 5, 4⟩ := by
  have hd : Market.demandFor buys .wood = 0 := by
    have hnil : buys.filter (fun o => o.resource = ResourceType.wood) = [] := by
      rw [List.filter_eq_nil_iff]
      intro o ho
      simpa using hb o ho
    simp [Market.demandFor, hnil]
  simp [Market.updatePrices, Market.repriceGood, hd, Market.lookupGood, hq, Market.clampQ]
  norm_num

/-- C7 amended witness: the market of the counterexample satisfies the
hypotheses, and its wood price after `update_prices` is 4.0. -/
theorem c7_amended_witness :
    (0 : ℤ) < 10 ∧
    Market.lookupGood
      (Market.updatePrices ⟨[(.wood, ⟨.wood, 10, 5, 5⟩)], [], [], 0⟩).inventory .wood
      = some ⟨.wood, 10, 5, 4⟩ := by
  exact ⟨by norm_num, c7_amended 10 5 [] [] 0 (by norm_num) (by intro o ho; simp at ho)⟩

/-- C10 counterexample: the transcribed lock trace of `tick_slow` violates
the claimed fixed global acquisition order: it contains a nested
acquisition pair in the reverse of the claimed order (the agent-roster
lock is held while the markets and buildings locks are acquired). -/
theorem c10_counterexample : ¬ followsGlobalOrder tickSlowLockTrace := by
  decide

/-- C10 amended: `tick_slow` holds the markets lock while acquiring the
agent-roster lock (order matching and settlement, lines 1046-1047) and
elsewhere holds the agent-roster lock while acquiring the markets lock
(builder purchase, lines 1353-1413), so the market/agent lock pair is
acquired in both nesting orders and no single fixed global order covers
the code; deadlock freedom rests on the single-threaded scheduler
instead. -/
theorem c10_amended :
    (Lock.market, Lock.agentRoster) ∈ nestedAcquisitions tickSlowLockTrace [] ∧
    (Lock.agentRoster, Lock.market) ∈ nestedAcquisitions tickSlowLockTrace [] := by
  decide

theorem takeFor_congr {m1 m2 : Market} {r : ResourceType}
    (remaining : List (ResourceType × ℤ)) (cap : ℤ)
    (h : Market.lookupGood m1.inventory r = Market.lookupGood m2.inventory r) :
    takeFor remaining r cap m1 = takeFor remaining r cap m2 := by
  simp only [takeFor, h]

theorem priceAt_congr {m1 m2 : Market} {r : ResourceType}
    (h : Market.lookupGood m1.inventory r = Market.lookupGood m2.inventory r) :
    priceAt m1 r = priceAt m2 r := by
  rw [priceAt, priceAt, h]

theorem costFor_congr {m1 m2 : Market} {r : ResourceType}
    (remaining : List (ResourceType × ℤ)) (cap : ℤ)
    (h : Market.lookupGood m1.inventory r = Market.lookupGood m2.inventory r) :
    costFor remaining r cap m1 = costFor remaining r cap m2 := by
  rw [costFor, costFor, takeFor_congr remaining cap h, priceAt_congr h]

/-- C8 counterexample: a building still needing 20 wood, a market stocking
only 5 wood at price 5.0 and an ample fund of 1000.0: the purchase takes
the 5 available units (clamping to stock) instead of aborting fully, so
the carried amount is 5, not 0. -/
theorem c8_counterexample :
    (builderPurchase 1000 [(.wood, 20)] c8Market 7).carried.wood = 5 ∧
    (5 : ℤ) ≠ 0 ∧
    stockOf (builderPurchase 1000 [(.wood, 20)] c8Market 7).market .wood = 0 := by
  refine ⟨?_, by norm_num, ?_⟩
  · norm_num [builderPurchase, purchaseStep, lookupQty, Market.lookupGood, c8Market,
      Market.updateGood]
  · norm_num [builderPurchase, purchaseStep, lookupQty, Market.lookupGood, c8Market,
      Market.updateGood, stockOf]

/-- C8 amended: a harvest from a resource node is clamped to the node's
remaining quantity (returning the clamped amount, never failing for an
existing node and never driving any node negative), while a builder
purchase also clamps the requested quantity to the market's available
stock (and per-trip cap) and proceeds when the fund covers the clamped
cost; it takes nothing for a resource only when the clamped quantity is
zero or the fund cannot cover the clamped cost. -/
theorem c8_amended :
    (∀ (nodes : List ResourceNode) (nid amount : ℕ) (n : ResourceNode),
      nodes.find? (fun x => x.id = nid) = some n →
      (harvest nodes nid amount).2 = some (min (amount : ℤ) n.quantity)) ∧
    (∀ (nodes : List ResourceNode) (nid amount : ℕ),
      (∀ x ∈ nodes, 0 ≤ x.quantity) →
      ∀ x ∈ (harvest nodes nid amount).1, 0 ≤ x.quantity) ∧
    (∀ (fund : ℚ) (remaining : List (ResourceType × ℤ)) (m : Market) (tid : ℕ),
      (builderPurchase fund remaining m tid).carried.wood =
        if 0 < takeFor remaining .wood 20 m ∧ costFor remaining .wood 20 m ≤ fund
        then takeFor remaining .wood 20 m else 0) := by
  refine ⟨?_, ?_, ?_⟩
  · intro nodes nid amount n h
    induction nodes with
    | nil => simp at h
    | cons n0 rest ih =>
      by_cases h0 : n0.id = nid
      · rw [List.find?_cons_of_pos _ (by simpa using h0)] at h
        cases h
        rw [harvest, if_pos h0]
      · rw [List.find?_cons_of_neg _ (by simpa using h0)] at h
        rw [harvest, if_neg h0]
        exact ih h
  · intro nodes nid amount h
    induction nodes with
    | nil => intro x hx; simp [harvest] at hx
    | cons n0 rest ih =>
      intro x hx
      rw [harvest] at hx
      by_cases h0 : n0.id = nid
      · rw [if_pos h0] at hx
        rcases List.mem_cons.mp hx with h1 | h1
        · subst h1
          have hq := h n0 (List.mem_cons_self _ _)
          simp only
          omega
        · exact h x (List.mem_cons_of_mem _ h1)
      · rw [if_neg h0] at hx
        rcases List.mem_cons.mp hx with h1 | h1
        · exact h1 ▸ h n0 (List.mem_cons_self _ _)
        · exact ih (fun y hy => h y (List.mem_cons_of_mem _ hy)) x h1
  · intro fund remaining m tid
    dsimp only [builderPurchase]
    rw [purchaseStep_take]
    rw [sub_zero]

/-- C8 amended witness: a node of 7 units harvested for 10 yields exactly
7, and the purchase of the counterexample market takes exactly the 5
stocked units. -/
theorem c8_amended_witness :
    (harvest [⟨3, 7⟩] 3 10).2 = some 7 ∧
    (builderPurchase 1000 [(.wood, 20)] c8Market 7).carried.wood = 5 := by
  constructor
  · have h := c8_amended.1 [⟨3, 7⟩] 3 10 ⟨3, 7⟩ (by
      rw [List.find?_cons_of_pos _ (by norm_num)])
    rw [h]
    norm_num
  · have h := c8_amended.2.2 1000 [(.wood, 20)] c8Market 7
    rw [h, if_pos]
    · norm_num [takeFor, lookupQty, Market.lookupGood, c8Market]
    · constructor
      · norm_num [takeFor, lookupQty, Market.lookupGood, c8Market]
      · norm_num [costFor, takeFor, priceAt, lookupQty, Market.lookupGood, c8Market]

/-- C4: a builder purchase on a building's behalf decrements the market
stock of each resource by exactly the carried amount, charges the fund
exactly the sum of the committed purchases at current prices, never drives
the fund negative, and fails cleanly per resource: whenever the remaining
fund cannot cover the cost of a resource's clamped quantity, no units of
that resource are taken and nothing is charged for them. -/
theorem c4_clean_purchase (fund : ℚ) (remaining : List (ResourceType × ℤ))
    (m : Market) (tid : ℕ) (h0 : 0 ≤ fund) :
    (builderPurchase fund remaining m tid).totalCost =
        priceAt m .wood * ((builderPurchase fund remaining m tid).carried.wood : ℚ) +
        priceAt m .stone * ((builderPurchase fund remaining m tid).carried.stone : ℚ) +
        priceAt m .iron * ((builderPurchase fund remaining m tid).carried.iron : ℚ) ∧
    (builderPurchase fund remaining m tid).totalCost ≤ fund ∧
    0 ≤ fund - (builderPurchase fund remaining m tid).totalCost ∧
    (∀ r, stockOf (builderPurchase fund remaining m tid).market r =
        stockOf m r - carriedAt (builderPurchase fund remaining m tid).carried r) ∧
    (fund < costFor remaining .wood 20 m →
      (builderPurchase fund remaining m tid).carried.wood = 0) ∧
    (fund - priceAt m .wood * ((builderPurchase fund remaining m tid).carried.wood : ℚ) <
        costFor remaining .stone 20 m →
      (builderPurchase fund remaining m tid).carried.stone = 0) ∧
    (fund - priceAt m .wood * ((builderPurchase fund remaining m tid).carried.wood : ℚ)
          - priceAt m .stone * ((builderPurchase fund remaining m tid).carried.stone : ℚ) <
        costFor remaining .iron 10 m →
      (builderPurchase fund remaining m tid).carried.iron = 0) := by
  dsimp only [builderPurchase]
  have lnW : Market.lookupGood (purchaseStep remaining fund .wood 20 m 0).1.inventory .stone =
      Market.lookupGood m.inventory .stone := purchaseStep_lookup_ne (by decide)
  have lnWi : Market.lookupGood (purchaseStep remaining fund .wood 20 m 0).1.inventory .iron =
      Market.lookupGood m.inventory .iron := purchaseStep_lookup_ne (by decide)
  have lnSi : Market.lookupGood (purchaseStep remaining fund .stone 20
        (purchaseStep remaining fund .wood 20 m 0).1
        (purchaseStep remaining fund .wood 20 m 0).2.2).1.inventory .iron =
      Market.lookupGood (purchaseStep remaining fund .wood 20 m 0).1.inventory .iron :=
    purchaseStep_lookup_ne (by decide)
  have h1 := purchaseStep_cost remaining fund .wood 20 m 0
  have h2 := purchaseStep_cost remaining fund .stone 20
    (purchaseStep remaining fund .wood 20 m 0).1
    (purchaseStep remaining fund .wood 20 m 0).2.2
  have h3 := purchaseStep_cost remaining fund .iron 10
    (purchaseStep remaining fund .stone 20 (purchaseStep remaining fund .wood 20 m 0).1
      (purchaseStep remaining fund .wood 20 m 0).2.2).1
    (purchaseStep remaining fund .stone 20 (purchaseStep remaining fund .wood 20 m 0).1
      (purchaseStep remaining fund .wood 20 m 0).2.2).2.2
  have hp2 : priceAt (purchaseStep remaining fund .wood 20 m 0).1 .stone = priceAt m .stone :=
    priceAt_congr lnW
  have hp3 : priceAt (purchaseStep remaining fund .stone 20
        (purchaseStep remaining fund .wood 20 m 0).1
        (purchaseStep remaining fund .wood 20 m 0).2.2).1 .iron = priceAt m .iron := by
    rw [priceAt_congr lnSi, priceAt_congr lnWi]
  have t1 : (purchaseStep remaining fund .wood 20 m 0).2.2 ≤ fund := purchaseStep_tcLe h0
  have t2 : (purchaseStep remaining fund .stone 20
      (purchaseStep remaining fund .wood 20 m 0).1
      (purchaseStep remaining fund .wood 20 m 0).2.2).2.2 ≤ fund := purchaseStep_tcLe t1
  have t3 : (purchaseStep remaining fund .iron 10
      (purchaseStep remaining fund .stone 20 (purchaseStep remaining fund .wood 20 m 0).1
        (purchaseStep remaining fund .wood 20 m 0).2.2).1
      (purchaseStep remaining fund .stone 20 (purchaseStep remaining fund .wood 20 m 0).1
        (purchaseStep remaining fund .wood 20 m 0).2.2).2.2).2.2 ≤ fund := purchaseStep_tcLe t2
  rw [hp2] at h2
  rw [hp3] at h3
  refine ⟨?_, ?_, ?_, ?_, ?_, ?_, ?_⟩
  · linarith [h1, h2, h3]
  · exact t3
  · linarith
  · intro r
    have nW : ∀ r2, r2 ≠ ResourceType.wood →
        stockOf (purchaseStep remaining fund .wood 20 m 0).1 r2 = stockOf m r2 := by
      intro r2 hx
      rw [stockOf, stockOf, purchaseStep_lookup_ne hx]
    have nS : ∀ r2, r2 ≠ ResourceType.stone →
        stockOf (purchaseStep remaining fund .stone 20
          (purchaseStep remaining fund .wood 20 m 0).1
          (purchaseStep remaining fund .wood 20 m 0).2.2).1 r2 =
        stockOf (purchaseStep remaining fund .wood 20 m 0).1 r2 := by
      intro r2 hx
      rw [stockOf, stockOf, purchaseStep_lookup_ne hx]
    have nI : ∀ r2, r2 ≠ ResourceType.iron →
        stockOf (purchaseStep remaining fund .iron 10
          (purchaseStep remaining fund .stone 20
            (purchaseStep remaining fund .wood 20 m 0).1
            (purchaseStep remaining fund .wood 20 m 0).2.2).1
          (purchaseStep remaining fund .stone 20
            (purchaseStep remaining fund .wood 20 m 0).1
            (purchaseStep remaining fund .wood 20 m 0).2.2).2.2).1 r2 =
        stockOf (purchaseStep remaining fund .stone 20
          (purchaseStep remaining fund .wood 20 m 0).1
          (purchaseStep remaining fund .wood 20 m 0).2.2).1 r2 := by
      intro r2 hx
      rw [stockOf, stockOf, purchaseStep_lookup_ne hx]
    have sW := purchaseStep_stock remaining fund .wood 20 m 0
    have sS := purchaseStep_stock remaining fund .stone 20
      (purchaseStep remaining fund .wood 20 m 0).1
      (purchaseStep remaining fund .wood 20 m 0).2.2
    have sI := purchaseStep_stock remaining fund .iron 10
      (purchaseStep remaining fund .stone 20 (purchaseStep remaining fund .wood 20 m 0).1
        (purchaseStep remaining fund .wood 20 m 0).2.2).1
      (purchaseStep remaining fund .stone 20 (purchaseStep remaining fund .wood 20 m 0).1
        (purchaseStep remaining fund .wood 20 m 0).2.2).2.2
    cases r with
    | wood =>
      dsimp only [carriedAt]
      rw [nI _ (by decide), nS _ (by decide), sW]
    | stone =>
      dsimp only [carriedAt]
      rw [nI _ (by decide), sS, nW _ (by decide)]
    | iron =>
      dsimp only [carriedAt]
      rw [sI, nS _ (by decide), nW _ (by decide)]
    | gold =>
      dsimp only [carriedAt]
      rw [nI _ (by decide), nS _ (by decide), nW _ (by decide), sub_zero]
    | food =>
      dsimp only [carriedAt]
      rw [nI _ (by decide), nS _ (by decide), nW _ (by decide), sub_zero]
    | water =>
      dsimp only [carriedAt]
      rw [nI _ (by decide), nS _ (by decide), nW _ (by decide), sub_zero]
    | cloth =>
      dsimp only [carriedAt]
      rw [nI _ (by decide), nS _ (by decide), nW _ (by decide), sub_zero]
    | tool =>
      dsimp only [carriedAt]
      rw [nI _ (by decide), nS _ (by decide), nW _ (by decide), sub_zero]
    | weapon =>
      dsimp only [carriedAt]
      rw [nI _ (by decide), nS _ (by decide), nW _ (by decide), sub_zero]
    | coin =>
      dsimp only [carriedAt]
      rw [nI _ (by decide), nS _ (by decide), nW _ (by decide), sub_zero]
  · intro hw
    rw [purchaseStep_take]
    rw [if_neg]
    rintro ⟨_, hle⟩
    rw [sub_zero] at hle
    linarith
  · intro hs
    rw [purchaseStep_take]
    rw [if_neg]
    rintro ⟨_, hle⟩
    rw [costFor_congr remaining 20 lnW] at hle
    linarith [h1, hle, hs]
  · intro hi
    rw [purchaseStep_take]
    rw [if_neg]
    rintro ⟨_, hle⟩
    rw [costFor_congr remaining 10 lnSi, costFor_congr remaining 10 lnWi] at hle
    linarith [h1, h2, hle, hi]

/-- C4 witness: the clean-purchase contract instantiated at a fund of
1000.0 against the 5-wood market. -/
theorem c4_clean_purchase_witness :
    (0 : ℚ) ≤ 1000 ∧
    stockOf (builderPurchase 1000 [(.wood, 20)] c8Market 7).market .wood =
      stockOf c8Market .wood -
        carriedAt (builderPurchase 1000 [(.wood, 20)] c8Market 7).carried .wood ∧
    0 ≤ 1000 - (builderPurchase 1000 [(.wood, 20)] c8Market 7).totalCost := by
  have h := c4_clean_purchase 1000 [(.wood, 20)] c8Market 7 (by norm_num)
  exact ⟨by norm_num, h.2.2.2.1 .wood, h.2.2.1⟩

theorem invGet_invAdd (inv : List (ResourceType × ℤ)) (r : ResourceType) (q : ℤ) :
    Agent.invGet (Agent.invAdd inv r q) r = Agent.invGet inv r + q := by
  induction inv with
  | nil => simp [Agent.invAdd, Agent.invGet]
  | cons p rest ih =>
    obtain ⟨r', q'⟩ := p
    rw [Agent.invAdd]
    by_cases hr : r' = r
    · rw [if_pos hr, Agent.invGet, if_pos hr, Agent.invGet, if_pos hr]
    · rw [if_neg hr, Agent.invGet, if_neg hr, Agent.invGet, if_neg hr, ih]

theorem invGet_invSatSub (inv : List (ResourceType × ℤ)) (r : ResourceType)
    {q : ℤ} (hq : 0 ≤ q) :
    Agent.invGet (Agent.invSatSub inv r q) r = max 0 (Agent.invGet inv r - q) := by
  induction inv with
  | nil =>
    rw [Agent.invSatSub, Agent.invGet]
    omega
  | cons p rest ih =>
    obtain ⟨r', q'⟩ := p
    rw [Agent.invSatSub]
    by_cases hr : r' = r
    · rw [if_pos hr, Agent.invGet, if_pos hr, Agent.invGet, if_pos hr]
    · rw [if_neg hr, Agent.invGet, if_neg hr, Agent.invGet, if_neg hr, ih]

/-- Effect of settling one trade when the buyer and a distinct seller both
exist and the buyer can afford the total cost: the buyer pays exactly
`price * quantity` and gains exactly `quantity` units, the seller receives
exactly the same money and loses the saturating difference, every other
wallet is untouched. -/
theorem settleTrade_effects (agents : List Agent) (t : TradeExecution)
    (b s : Agent)
    (hb : agents.find? (fun a => a.id = t.buyerId) = some b)
    (hs : agents.find? (fun a => a.id = t.sellerId) = some s)
    (hne : t.buyerId ≠ t.sellerId)
    (haff : t.pricePerUnit * (t.quantity : ℚ) ≤ b.wallet) :
    walletOf (settleTrade agents t) t.buyerId =
      b.wallet - t.pricePerUnit * (t.quantity : ℚ) ∧
    walletOf (settleTrade agents t) t.sellerId =
      s.wallet + t.pricePerUnit * (t.quantity : ℚ) ∧
    invOf (settleTrade agents t) t.buyerId t.resource =
      Agent.invGet b.inventory t.resource + (t.quantity : ℤ) ∧
    invOf (settleTrade agents t) t.sellerId t.resource =
      max 0 (Agent.invGet s.inventory t.resource - (t.quantity : ℤ)) ∧
    (∀ j, j ≠ t.buyerId → j ≠ t.sellerId →
      walletOf (settleTrade agents t) j = walletOf agents j) := by
  have hid1 : ∀ a : Agent, ((fun (a : Agent) => { a with
      wallet := a.wallet - t.pricePerUnit * (t.quantity : ℚ),
      inventory := Agent.invAdd a.inventory t.resource (t.quantity : ℤ) }) a).id = a.id :=
    fun a => rfl
  have hid2 : ∀ a : Agent, ((fun (a : Agent) => { a with
      wallet := a.wallet + t.pricePerUnit * (t.quantity : ℚ),
      inventory := Agent.invSatSub a.inventory t.resource (t.quantity : ℤ) }) a).id = a.id :=
    fun a => rfl
  have hfind : (updateFirst (fun a => a.id = t.buyerId)
      (fun a => { a with wallet := a.wallet - t.pricePerUnit * (t.quantity : ℚ),
                         inventory := Agent.invAdd a.inventory t.resource (t.quantity : ℤ) })
      agents).find? (fun a => a.id = t.sellerId) = some s := by
    rw [find?_updateFirst_ne hid1 hne]
    exact hs
  simp only [settleTrade, hb, if_pos haff, hfind]
  have hb1 : (updateFirst (fun a => a.id = t.buyerId)
      (fun a => { a with wallet := a.wallet - t.pricePerUnit * (t.quantity : ℚ),
                         inventory := Agent.invAdd a.inventory t.resource (t.quantity : ℤ) })
      agents).find? (fun a => a.id = t.buyerId) = some { b with
        wallet := b.wallet - t.pricePerUnit * (t.quantity : ℚ),
        inventory := Agent.invAdd b.inventory t.resource (t.quantity : ℤ) } :=
    find?_updateFirst_self hid1 hb
  refine ⟨?_, ?_, ?_, ?_, ?_⟩
  · rw [walletOf, find?_updateFirst_ne hid2 (Ne.symm hne), hb1]
    rfl
  · rw [walletOf, find?_updateFirst_self hid2 hfind]
    rfl
  · rw [invOf, find?_updateFirst_ne hid2 (Ne.symm hne), hb1]
    simp only [Option.map_some', Option.getD_some]
    exact invGet_invAdd _ _ _
  · rw [invOf, find?_updateFirst_self hid2 hfind]
    simp only [Option.map_some', Option.getD_some]
    exact invGet_invSatSub _ _ (by positivity)
  · intro j hj1 hj2
    rw [walletOf, walletOf,
      find?_updateFirst_ne hid2 (fun hc => hj2 hc.symm),
      find?_updateFirst_ne hid1 (fun hc => hj1 hc.symm)]

/-- C2 counterexample: settling a trade of 5 wood against a seller holding
only 3 wood (possible because orders persist across ticks while
inventories change) adds 5 units to the buyer but removes only 3 from the
seller: the saturating subtraction leaks 2 units. -/
theorem c2_counterexample :
    invOf (settleTrade c2Agents c2Trade) 1 .wood = 5 ∧
    invOf c2Agents 2 .wood - invOf (settleTrade c2Agents c2Trade) 2 .wood = 3 ∧
    (3 : ℤ) ≠ 5 := by
  refine ⟨?_, ?_, by norm_num⟩
  · norm_num [c2Agents, c2Trade, settleTrade, updateFirst, invOf, walletOf,
      Agent.invAdd, Agent.invSatSub, Agent.invGet, List.find?]
  · norm_num [c2Agents, c2Trade, settleTrade, updateFirst, invOf, walletOf,
      Agent.invAdd, Agent.invSatSub, Agent.invGet, List.find?]

/-- C2 amended: `match_orders` conserves order-book quantity exactly (the
total removed from the buy side, the total removed from the sell side and
the total traded quantity coincide); at settlement the money removed from
the buyer equals the money added to the seller and every other wallet is
untouched, the buyer gains exactly the trade quantity, while the quantity
removed from the seller is `min(trade quantity, seller's holding)` — equal
to the buyer's gain only when the seller still holds at least the trade
quantity. -/
theorem c2_amended :
    (∀ m : Market,
      sumQty (m.matchOrders).1.buyOrders + sumExecQty (m.matchOrders).2 =
        sumQty m.buyOrders ∧
      sumQty (m.matchOrders).1.sellOrders + sumExecQty (m.matchOrders).2 =
        sumQty m.sellOrders) ∧
    (∀ (agents : List Agent) (t : TradeExecution) (b s : Agent),
      agents.find? (fun a => a.id = t.buyerId) = some b →
      agents.find? (fun a => a.id = t.sellerId) = some s →
      t.buyerId ≠ t.sellerId →
      t.pricePerUnit * (t.quantity : ℚ) ≤ b.wallet →
      0 ≤ Agent.invGet s.inventory t.resource →
      walletOf (settleTrade agents t) t.buyerId =
        b.wallet - t.pricePerUnit * (t.quantity : ℚ) ∧
      walletOf (settleTrade agents t) t.sellerId =
        s.wallet + t.pricePerUnit * (t.quantity : ℚ) ∧
      (∀ j, j ≠ t.buyerId → j ≠ t.sellerId →
        walletOf (settleTrade agents t) j = walletOf agents j) ∧
      invOf (settleTrade agents t) t.buyerId t.resource =
        Agent.invGet b.inventory t.resource + (t.quantity : ℤ) ∧
      Agent.invGet s.inventory t.resource -
        invOf (settleTrade agents t) t.sellerId t.resource =
        min (t.quantity : ℤ) (Agent.invGet s.inventory t.resource)) := by
  refine ⟨matchOrders_conserves, ?_⟩
  intro agents t b s hb hs hne haff hinv
  obtain ⟨h1, h2, h3, h4, h5⟩ := settleTrade_effects agents t b s hb hs hne haff
  refine ⟨h1, h2, h5, h3, ?_⟩
  rw [h4]
  have hq : (0 : ℤ) ≤ (t.quantity : ℤ) := by positivity
  omega

/-- C2 amended witness: a buyer with 100.0 and a seller holding 10 wood
settle a trade of 5 wood at 1.0: the buyer pays 5.0, the seller receives
5.0 and loses exactly min(5, 10) = 5 wood. -/
theorem c2_amended_witness :
    walletOf (settleTrade [c1Buyer 100, c1Seller 7] c2Trade) 1 = 95 ∧
    walletOf (settleTrade [c1Buyer 100, c1Seller 7] c2Trade) 2 = 12 ∧
    Agent.invGet (c1Seller 7).inventory .wood -
      invOf (settleTrade [c1Buyer 100, c1Seller 7] c2Trade) 2 .wood = 5 := by
  have h := c2_amended.2 [c1Buyer 100, c1Seller 7] c2Trade (c1Buyer 100) (c1Seller 7)
    (by norm_num [c1Buyer, c1Seller, c2Trade, List.find?])
    (by norm_num [c1Buyer, c1Seller, c2Trade, List.find?])
    (by norm_num [c2Trade])
    (by norm_num [c1Buyer, c2Trade])
    (by norm_num [c1Seller, c2Trade, Agent.invGet])
  obtain ⟨h1, h2, _, _, h5⟩ := h
  simp only [c2Trade] at h1 h2 h5 ⊢
  refine ⟨?_, ?_, ?_⟩
  · rw [h1]
    norm_num [c1Buyer]
  · rw [h2]
    norm_num [c1Seller]
  · rw [h5]
    norm_num [c1Seller, Agent.invGet]

/-! Supporting lemmas for the world invariant. -/

theorem mem_of_getElem? {l : List α} {i : ℕ} {a : α} (h : l[i]? = some a) :
    a ∈ l := by
  obtain ⟨hlt, hget⟩ := List.getElem?_eq_some_iff.mp h
  exact hget ▸ List.getElem_mem _

theorem modAt_forall {P : α → Prop} {l : List α} {i : ℕ} {f : α → α}
    (h : ∀ x ∈ l, P x) (hf : ∀ y, l[i]? = some y → P (f y)) :
    ∀ x ∈ modAt l i f, P x := by
  intro x hx
  rcases mem_modAt hx with h1 | ⟨y, hy, hxy⟩
  · exact h x h1
  · exact hxy ▸ hf y hy

theorem repriceGood_ok {buys : List TradeOrder} {g : MarketGood}
    (h : GoodOK g) : GoodOK (Market.repriceGood buys g) := by
  obtain ⟨h1, h2, h3, h4⟩ := h
  have hlo : g.basePrice * (0.5 : ℚ) ≤ g.basePrice * 3 := by nlinarith
  obtain ⟨c1, c2⟩ := clampQ_mem (x := g.basePrice *
    ((0.8 : ℚ) + (if 0 < g.quantity then
      ((Market.demandFor buys g.resourceType : ℕ) : ℚ) / (g.quantity : ℚ) else 2) * (0.4 : ℚ))) hlo
  exact ⟨h1, h2, c1, c2⟩

theorem updatePrices_goods_ok {m : Market}
    (h : ∀ p ∈ m.inventory, GoodOK p.2) :
    ∀ p ∈ (Market.updatePrices m).inventory, GoodOK p.2 := by
  intro p hp
  rw [Market.updatePrices] at hp
  simp only [List.mem_map] at hp
  obtain ⟨q, hq, hpq⟩ := hp
  subst hpq
  exact repriceGood_ok (h q hq)

theorem currentPrice_nonneg {g : MarketGood} (h : GoodOK g) :
    0 ≤ g.currentPrice := by
  obtain ⟨_, h2, h3, _⟩ := h
  nlinarith

theorem getMarketPrice_nonneg {markets : List Market} (r : ResourceType)
    (h : ∀ m ∈ markets, ∀ p ∈ m.inventory, GoodOK p.2) :
    0 ≤ getMarketPrice markets r := by
  rw [getMarketPrice]
  split_ifs with hc
  · exact le_of_lt (basePriceOf_pos r)
  · apply div_nonneg
    · apply List.sum_nonneg
      intro x hx
      simp only [List.mem_map] at hx
      obtain ⟨g, hg, hgx⟩ := hx
      simp only [List.mem_filterMap] at hg
      obtain ⟨m, hm, hlk⟩ := hg
      exact hgx ▸ currentPrice_nonneg (h m hm _ (lookupGood_mem hlk))
    · positivity

theorem remainingResources_pos {b : Building} :
    ∀ p ∈ b.remainingResources, 0 < p.2 := by
  intro p hp
  rw [Building.remainingResources] at hp
  simp only [List.mem_filterMap] at hp
  obtain ⟨a, _, ha⟩ := hp
  by_cases hc : Agent.invGet b.currentResources a.1 < (a.2 : ℤ)
  · rw [if_pos hc] at ha
    cases ha
    simp only
    omega
  · rw [if_neg hc] at ha
    cases ha

theorem estimatedCost_nonneg {markets : List Market} {b : Building}
    (h : ∀ m ∈ markets, ∀ p ∈ m.inventory, GoodOK p.2) :
    0 ≤ (b.remainingResources.map fun p =>
      getMarketPrice markets p.1 * (p.2 : ℚ)).sum := by
  apply List.sum_nonneg
  intro x hx
  simp only [List.mem_map] at hx
  obtain ⟨p, hp, hpx⟩ := hx
  have h1 := getMarketPrice_nonneg p.1 h
  have h2 := remainingResources_pos p hp
  subst hpx
  have : (0 : ℚ) ≤ (p.2 : ℚ) := by exact_mod_cast le_of_lt h2
  positivity

theorem depositEntry_preserve {acc : DepositAcc} {p : ResourceType × ℤ}
    (h1 : ∀ x ∈ acc.inv, GoodOK x.2) (h2 : 0 ≤ acc.earned) :
    (∀ x ∈ (depositEntry acc p).inv, GoodOK x.2) ∧
    0 ≤ (depositEntry acc p).earned := by
  rw [depositEntry]
  by_cases hq : 0 < p.2
  · rw [if_pos hq]
    constructor
    · intro x hx
      rcases mem_modifyOrInsert hx with hm | ⟨g, hg, hxg⟩ | hm
      · exact h1 x hm
      · subst hxg
        obtain ⟨g1, g2, g3, g4⟩ := h1 (p.1, g) (lookupGood_mem hg)
        dsimp only at g1
        refine ⟨?_, g2, g3, g4⟩
        show 0 ≤ g.quantity + p.2
        omega
      · subst hm
        have hb := basePriceOf_pos p.1
        refine ⟨le_of_lt hq, hb, ?_, ?_⟩
        · show basePriceOf p.1 * (0.5 : ℚ) ≤ basePriceOf p.1
          nlinarith
        · show basePriceOf p.1 ≤ basePriceOf p.1 * 3
          nlinarith
    · show 0 ≤ acc.earned + basePriceOf p.1 * (0.9 : ℚ) * ((p.2 : ℤ) : ℚ)
      have hb := basePriceOf_pos p.1
      have hp2 : (0 : ℚ) ≤ ((p.2 : ℤ) : ℚ) := by exact_mod_cast le_of_lt hq
      nlinarith
  · rw [if_neg hq]
    exact ⟨h1, h2⟩

theorem depositFold_preserve (entries : List (ResourceType × ℤ)) :
    ∀ (acc : DepositAcc), (∀ x ∈ acc.inv, GoodOK x.2) → 0 ≤ acc.earned →
    (∀ x ∈ (entries.foldl depositEntry acc).inv, GoodOK x.2) ∧
    0 ≤ (entries.foldl depositEntry acc).earned := by
  induction entries with
  | nil => intro acc h1 h2; exact ⟨h1, h2⟩
  | cons p rest ih =>
    intro acc h1 h2
    obtain ⟨g1, g2⟩ := depositEntry_preserve h1 h2
    exact ih _ g1 g2

theorem contributeFold_preserve (ids : List ℕ) (per : ℚ) (hper : 0 ≤ per) :
    ∀ (acc : List Agent × ℚ), (∀ a ∈ acc.1, AgentOK a) → 0 ≤ acc.2 →
    (∀ a ∈ (ids.foldl (contributeNoble per) acc).1, AgentOK a) ∧
    0 ≤ (ids.foldl (contributeNoble per) acc).2 := by
  induction ids with
  | nil => intro acc h1 h2; exact ⟨h1, h2⟩
  | cons nid rest ih =>
    intro acc h1 h2
    refine ih _ ?_ ?_
    · cases hf : acc.1.find? (fun a => a.id = nid) with
      | none => simp only [contributeNoble, hf]; exact h1
      | some a =>
        simp only [contributeNoble, hf]
        by_cases hw : per ≤ a.wallet
        · rw [if_pos hw]
          refine updateFirst_forall h1 ?_
          intro c hc
          rw [hf] at hc
          cases hc
          obtain ⟨hw1, hi1⟩ := h1 a (List.mem_of_find?_eq_some hf)
          refine ⟨?_, hi1⟩
          show 0 ≤ a.wallet - per
          linarith
        · rw [if_neg hw]
          exact h1
    · cases hf : acc.1.find? (fun a => a.id = nid) with
      | none => simp only [contributeNoble, hf]; exact h2
      | some a =>
        simp only [contributeNoble, hf]
        by_cases hw : per ≤ a.wallet
        · rw [if_pos hw]
          show 0 ≤ acc.2 + per
          linarith
        · rw [if_neg hw]
          exact h2

theorem payWages_inv {w : World} (h : WorldInv w) :
    WorldInv (applyOp w .payWages) := by
  obtain ⟨hA, hM, hB⟩ := h
  refine ⟨?_, hM, hB⟩
  intro a ha
  simp only [applyOp, List.mem_map] at ha
  obtain ⟨x, hx, hxa⟩ := ha
  obtain ⟨hw, hi⟩ := hA x hx
  subst hxa
  by_cases hwg : 0 < wageOf x
  · rw [if_pos hwg]
    exact ⟨by simp only; linarith, hi⟩
  · rw [if_neg hwg]
    exact ⟨hw, hi⟩

theorem placeBuy_inv {w : World} (aIdx mIdx : ℕ) (r : ResourceType)
    (deficit : ℕ) (desperate : Bool) (h : WorldInv w) :
    WorldInv (applyOp w (.placeBuy aIdx mIdx r deficit desperate)) := by
  obtain ⟨hA, hM, hB⟩ := h
  cases ha : w.agents[aIdx]? with
  | none => simp only [applyOp, ha]; exact ⟨hA, hM, hB⟩
  | some a =>
    simp only [applyOp, ha]
    by_cases hc : basePriceOf r * (if desperate then 2 else (1.5 : ℚ)) * (deficit : ℚ) ≤ a.wallet
    · rw [if_pos hc]
      refine ⟨hA, ?_, hB⟩
      refine modAt_forall hM ?_
      intro y hy
      obtain ⟨yg, yb, ys⟩ := hM y (mem_of_getElem? hy)
      refine ⟨yg, ?_, ys⟩
      intro o ho
      rcases List.mem_append.mp ho with h1 | h1
      · exact yb o h1
      · rw [List.mem_singleton.mp h1]
        have := basePriceOf_pos r
        show 0 ≤ basePriceOf r * (if desperate then 2 else (1.5 : ℚ))
        cases desperate <;> simp <;> nlinarith
    · rw [if_neg hc]
      exact ⟨hA, hM, hB⟩

theorem placeSell_inv {w : World} (aIdx mIdx : ℕ) (r : ResourceType)
    (excess : ℕ) (merchant : Bool) (h : WorldInv w) :
    WorldInv (applyOp w (.placeSell aIdx mIdx r excess merchant)) := by
  obtain ⟨hA, hM, hB⟩ := h
  cases ha : w.agents[aIdx]? with
  | none => simp only [applyOp, ha]; exact ⟨hA, hM, hB⟩
  | some a =>
    simp only [applyOp, ha]
    refine ⟨hA, ?_, hB⟩
    refine modAt_forall hM ?_
    intro y hy
    obtain ⟨yg, yb, ys⟩ := hM y (mem_of_getElem? hy)
    refine ⟨yg, yb, ?_⟩
    intro o ho
    rcases List.mem_append.mp ho with h1 | h1
    · exact ys o h1
    · rw [List.mem_singleton.mp h1]
      have := basePriceOf_pos r
      show 0 ≤ basePriceOf r * (if merchant then (1.2 : ℚ) else 1)
      cases merchant <;> simp <;> nlinarith

theorem updatePricesAt_inv {w : World} (mIdx : ℕ) (h : WorldInv w) :
    WorldInv (applyOp w (.updatePricesAt mIdx)) := by
  obtain ⟨hA, hM, hB⟩ := h
  refine ⟨hA, ?_, hB⟩
  simp only [applyOp]
  refine modAt_forall hM ?_
  intro y hy
  obtain ⟨yg, yb, ys⟩ := hM y (mem_of_getElem? hy)
  exact ⟨updatePrices_goods_ok yg, yb, ys⟩

theorem walletWithdraw_inv {w : World} (aIdx : ℕ) (amount : ℚ) (h : WorldInv w) :
    WorldInv (applyOp w (.walletWithdraw aIdx amount)) := by
  obtain ⟨hA, hM, hB⟩ := h
  refine ⟨?_, hM, hB⟩
  simp only [applyOp]
  refine modAt_forall hA ?_
  intro y hy
  obtain ⟨hw, hi⟩ := hA y (mem_of_getElem? hy)
  by_cases hc : amount ≤ y.wallet
  · rw [if_pos hc]
    exact ⟨by simp only; linarith, hi⟩
  · rw [if_neg hc]
    exact ⟨hw, hi⟩

theorem collectTaxes_inv {w : World} (h : WorldInv w) :
    WorldInv (applyOp w .collectTaxes) := by
  obtain ⟨hA, hM, hB⟩ := h
  have htaxed : ∀ a ∈ w.agents.map (fun a =>
      if taxable a ∧ 50 < a.wallet then
        { a with wallet := a.wallet - a.wallet * (0.05 : ℚ) }
      else a), AgentOK a := by
    intro a ha
    simp only [List.mem_map] at ha
    obtain ⟨x, hx, hxa⟩ := ha
    obtain ⟨hw, hi⟩ := hA x hx
    subst hxa
    by_cases hc : taxable x ∧ 50 < x.wallet
    · rw [if_pos hc]
      refine ⟨?_, hi⟩
      show 0 ≤ x.wallet - x.wallet * (0.05 : ℚ)
      nlinarith [hc.2]
    · rw [if_neg hc]
      exact ⟨hw, hi⟩
  have htot : 0 ≤ (w.agents.map fun a =>
      if taxable a ∧ 50 < a.wallet then a.wallet * (0.05 : ℚ) else 0).sum := by
    apply List.sum_nonneg
    intro x hx
    simp only [List.mem_map] at hx
    obtain ⟨a, _, hax⟩ := hx
    subst hax
    by_cases hc : taxable a ∧ 50 < a.wallet
    · rw [if_pos hc]
      nlinarith [hc.2]
    · rw [if_neg hc]
  simp only [applyOp]
  by_cases hpos : 0 < (w.agents.map fun a =>
      if taxable a ∧ 50 < a.wallet then a.wallet * (0.05 : ℚ) else 0).sum
  · rw [if_pos hpos]
    by_cases hempty : ((w.agents.map (fun a =>
        if taxable a ∧ 50 < a.wallet then
          { a with wallet := a.wallet - a.wallet * (0.05 : ℚ) }
        else a)).filter fun a =>
          a.socialClass = .king ∨ a.socialClass = .noble).map (fun a => a.id) = []
    · rw [if_pos hempty]
      exact ⟨htaxed, hM, hB⟩
    · rw [if_neg hempty]
      refine ⟨?_, hM, hB⟩
      intro a ha
      obtain ⟨x, hx, hxa⟩ := List.mem_map.mp ha
      obtain ⟨hw, hi⟩ := htaxed x hx
      subst hxa
      have hlen : 0 < (((w.agents.map (fun a =>
          if taxable a ∧ 50 < a.wallet then
            { a with wallet := a.wallet - a.wallet * (0.05 : ℚ) }
          else a)).filter fun a =>
            a.socialClass = .king ∨ a.socialClass = .noble).map (fun a => a.id)).length := by
        cases hl : ((w.agents.map (fun a =>
            if taxable a ∧ 50 < a.wallet then
              { a with wallet := a.wallet - a.wallet * (0.05 : ℚ) }
            else a)).filter fun a =>
              a.socialClass = .king ∨ a.socialClass = .noble).map (fun a => a.id) with
        | nil => exact absurd hl hempty
        | cons x xs => simp
      have hper : 0 ≤ (w.agents.map fun a =>
          if taxable a ∧ 50 < a.wallet then a.wallet * (0.05 : ℚ) else 0).sum /
          ((((w.agents.map (fun a =>
            if taxable a ∧ 50 < a.wallet then
              { a with wallet := a.wallet - a.wallet * (0.05 : ℚ) }
            else a)).filter fun a =>
              a.socialClass = .king ∨ a.socialClass = .noble).map (fun a => a.id)).length : ℚ) := by
        apply div_nonneg htot
        positivity
      by_cases hin : (((w.agents.map (fun a =>
          if taxable a ∧ 50 < a.wallet then
            { a with wallet := a.wallet - a.wallet * (0.05 : ℚ) }
          else a)).filter fun a =>
            a.socialClass = .king ∨ a.socialClass = .noble).map (fun a => a.id)).contains x.id
      · rw [if_pos hin]
        exact ⟨by simp only; linarith, hi⟩
      · rw [if_neg hin]
        exact ⟨hw, hi⟩
  · rw [if_neg hpos]
    exact ⟨htaxed, hM, hB⟩

theorem matchAndSettle_inv {w : World} (mIdx : ℕ) (h : WorldInv w) :
    WorldInv (applyOp w (.matchAndSettle mIdx)) := by
  obtain ⟨hA, hM, hB⟩ := h
  cases hm : w.markets[mIdx]? with
  | none => simp only [applyOp, hm]; exact ⟨hA, hM, hB⟩
  | some m =>
    simp only [applyOp, hm]
    obtain ⟨mg, mb, ms⟩ := hM m (mem_of_getElem? hm)
    obtain ⟨ob, os, oe⟩ := matchOrders_ok m mb ms
    refine ⟨settleTrades_ok oe hA, ?_, hB⟩
    refine modAt_forall hM ?_
    intro y _
    refine ⟨?_, ob, os⟩
    have hinv : (m.matchOrders).1.inventory = m.inventory := rfl
    refine updatePrices_goods_ok ?_
    rw [hinv]
    exact mg

theorem marketDeposit_inv {w : World} (aIdx mIdx : ℕ) (h : WorldInv w) :
    WorldInv (applyOp w (.marketDeposit aIdx mIdx)) := by
  obtain ⟨hA, hM, hB⟩ := h
  cases ha : w.agents[aIdx]? with
  | none => simp only [applyOp, ha]; exact ⟨hA, hM, hB⟩
  | some a =>
    simp only [applyOp, ha]
    by_cases hguard : a.state = AgentState.trading ∧
        (a.job = Job.woodcutter ∨ a.job = Job.miner ∨ a.job = Job.farmer)
    · rw [if_pos hguard]
      cases hm : w.markets[mIdx]? with
      | none => exact ⟨hA, hM, hB⟩
      | some m =>
        obtain ⟨mg, mb, ms⟩ := hM m (mem_of_getElem? hm)
        obtain ⟨haw, hai⟩ := hA a (mem_of_getElem? ha)
        obtain ⟨fg, fe⟩ := depositFold_preserve a.inventory ⟨m.inventory, 0, 0⟩ mg le_rfl
        refine ⟨?_, ?_, hB⟩
        · refine modAt_forall hA ?_
          intro y _
          have ha1 : AgentOK (if 0 < (a.inventory.foldl depositEntry
              ⟨m.inventory, 0, 0⟩).earned then
              { a with wallet := a.wallet +
                (a.inventory.foldl depositEntry ⟨m.inventory, 0, 0⟩).earned }
              else a) := by
            split_ifs with hc
            · refine ⟨?_, hai⟩
              show 0 ≤ a.wallet + (a.inventory.foldl depositEntry ⟨m.inventory, 0, 0⟩).earned
              linarith
            · exact ⟨haw, hai⟩
          have ha2 : AgentOK (if 0 < (a.inventory.foldl depositEntry
              ⟨m.inventory, 0, 0⟩).deposited then
              { (if 0 < (a.inventory.foldl depositEntry ⟨m.inventory, 0, 0⟩).earned then
                  { a with wallet := a.wallet + (a.inventory.foldl depositEntry
                    ⟨m.inventory, 0, 0⟩).earned } else a) with
                  inventory := ([] : List (ResourceType × ℤ)) }
              else (if 0 < (a.inventory.foldl depositEntry ⟨m.inventory, 0, 0⟩).earned then
                  { a with wallet := a.wallet + (a.inventory.foldl depositEntry
                    ⟨m.inventory, 0, 0⟩).earned } else a)) := by
            by_cases hd : 0 < (a.inventory.foldl depositEntry ⟨m.inventory, 0, 0⟩).deposited
            · rw [if_pos hd]
              refine ⟨ha1.1, ?_⟩
              intro p hp
              simp at hp
            · rw [if_neg hd]
              exact ha1
          exact ⟨ha2.1, ha2.2⟩
        · refine modAt_forall hM ?_
          intro y hy
          obtain ⟨_, yb, ys⟩ := hM y (mem_of_getElem? hy)
          exact ⟨fg, yb, ys⟩
    · rw [if_neg hguard]
      exact ⟨hA, hM, hB⟩

theorem interMarketTransfer_inv {w : World} (fromIdx toIdx : ℕ)
    (r : ResourceType) (amount : ℕ) (h : WorldInv w) :
    WorldInv (applyOp w (.interMarketTransfer fromIdx toIdx r amount)) := by
  obtain ⟨hA, hM, hB⟩ := h
  cases hmf : w.markets[fromIdx]? with
  | none => simp only [applyOp, hmf]; exact ⟨hA, hM, hB⟩
  | some fromM =>
    simp only [applyOp, hmf]
    cases hlk : Market.lookupGood fromM.inventory r with
    | none => exact ⟨hA, hM, hB⟩
    | some g =>
      dsimp only
      by_cases hq : (amount : ℤ) ≤ g.quantity
      · rw [if_pos hq]
        refine ⟨hA, ?_, hB⟩
        have hM1 : ∀ y ∈ modAt w.markets fromIdx (fun m =>
            { m with inventory := Market.updateGood m.inventory r
                                    (fun g0 => { g0 with quantity := g0.quantity - (amount : ℤ) }) }),
            MarketOK y := by
          refine modAt_forall hM ?_
          intro y hy
          rw [hmf] at hy
          cases hy
          obtain ⟨yg, yb, ys⟩ := hM fromM (mem_of_getElem? hmf)
          refine ⟨?_, yb, ys⟩
          intro p hp
          rcases mem_updateGood hp with h1 | ⟨g2, hg2, hp2⟩
          · exact yg p h1
          · rw [hlk] at hg2
            cases hg2
            subst hp2
            obtain ⟨g1, g2, g3, g4⟩ := yg (r, g) (lookupGood_mem hlk)
            refine ⟨?_, g2, g3, g4⟩
            show 0 ≤ g.quantity - (amount : ℤ)
            omega
        refine modAt_forall hM1 ?_
        intro y hy
        obtain ⟨yg, yb, ys⟩ := hM1 y (mem_of_getElem? hy)
        refine ⟨?_, yb, ys⟩
        intro p hp
        rcases mem_modifyOrInsert hp with h1 | ⟨g5, hg5, hp2⟩ | h1
        · exact yg p h1
        · subst hp2
          obtain ⟨g1, g2, g3, g4⟩ := yg (r, g5) (lookupGood_mem hg5)
          refine ⟨?_, g2, g3, g4⟩
          dsimp only at g1
          show 0 ≤ g5.quantity + (amount : ℤ)
          omega
        · subst h1
          have hb := basePriceOf_pos r
          refine ⟨by positivity, hb, ?_, ?_⟩
          · show basePriceOf r * (0.5 : ℚ) ≤ basePriceOf r
            nlinarith
          · show basePriceOf r ≤ basePriceOf r * 3
            nlinarith
      · rw [if_neg hq]
        exact ⟨hA, hM, hB⟩

theorem builderPurchaseAt_inv {w : World} (bIdx mIdx aIdx : ℕ) (h : WorldInv w) :
    WorldInv (applyOp w (.builderPurchaseAt bIdx mIdx aIdx)) := by
  obtain ⟨hA, hM, hB⟩ := h
  cases hbu : w.buildings[bIdx]? with
  | none => simp only [applyOp, hbu]; exact ⟨hA, hM, hB⟩
  | some b =>
    simp only [applyOp, hbu]
    cases hmk : w.markets[mIdx]? with
    | none => exact ⟨hA, hM, hB⟩
    | some m =>
      dsimp only
      by_cases hrem : b.remainingResources = []
      · rw [if_pos hrem]
        exact ⟨hA, hM, hB⟩
      · rw [if_neg hrem]
        obtain ⟨hbf, hbc⟩ := hB b (mem_of_getElem? hbu)
        have t1 : (purchaseStep b.remainingResources b.constructionFund .wood 20 m 0).2.2 ≤
            b.constructionFund := purchaseStep_tcLe hbf
        have t2 : (purchaseStep b.remainingResources b.constructionFund .stone 20
            (purchaseStep b.remainingResources b.constructionFund .wood 20 m 0).1
            (purchaseStep b.remainingResources b.constructionFund .wood 20 m 0).2.2).2.2 ≤
            b.constructionFund := purchaseStep_tcLe t1
        have t3 : (purchaseStep b.remainingResources b.constructionFund .iron 10
            (purchaseStep b.remainingResources b.constructionFund .stone 20
              (purchaseStep b.remainingResources b.constructionFund .wood 20 m 0).1
              (purchaseStep b.remainingResources b.constructionFund .wood 20 m 0).2.2).1
            (purchaseStep b.remainingResources b.constructionFund .stone 20
              (purchaseStep b.remainingResources b.constructionFund .wood 20 m 0).1
              (purchaseStep b.remainingResources b.constructionFund .wood 20 m 0).2.2).2.2).2.2 ≤
            b.constructionFund := purchaseStep_tcLe t2
        refine ⟨?_, ?_, ?_⟩
        · refine modAt_forall hA ?_
          intro y hy
          obtain ⟨yw, yi⟩ := hA y (mem_of_getElem? hy)
          by_cases hc : 0 < (builderPurchase b.constructionFund b.remainingResources m b.id).carried.wood ∨
              0 < (builderPurchase b.constructionFund b.remainingResources m b.id).carried.stone ∨
              0 < (builderPurchase b.constructionFund b.remainingResources m b.id).carried.iron
          · rw [if_pos hc]
            exact ⟨yw, yi⟩
          · rw [if_neg hc]
            exact ⟨yw, yi⟩
        · refine modAt_forall hM ?_
          intro y _
          obtain ⟨mgOK, mbOK, msOK⟩ := hM m (mem_of_getElem? hmk)
          have g1 : ∀ p ∈ (purchaseStep b.remainingResources b.constructionFund .wood 20 m 0).1.inventory,
              GoodOK p.2 := purchaseStep_goods_ok mgOK
          have g2 : ∀ p ∈ (purchaseStep b.remainingResources b.constructionFund .stone 20
              (purchaseStep b.remainingResources b.constructionFund .wood 20 m 0).1
              (purchaseStep b.remainingResources b.constructionFund .wood 20 m 0).2.2).1.inventory,
              GoodOK p.2 := purchaseStep_goods_ok g1
          have g3 : ∀ p ∈ (builderPurchase b.constructionFund b.remainingResources m b.id).market.inventory,
              GoodOK p.2 := purchaseStep_goods_ok g2
          have o1 := purchaseStep_orders b.remainingResources b.constructionFund .wood 20 m 0
          have o2 := purchaseStep_orders b.remainingResources b.constructionFund .stone 20
            (purchaseStep b.remainingResources b.constructionFund .wood 20 m 0).1
            (purchaseStep b.remainingResources b.constructionFund .wood 20 m 0).2.2
          have o3 := purchaseStep_orders b.remainingResources b.constructionFund .iron 10
            (purchaseStep b.remainingResources b.constructionFund .stone 20
              (purchaseStep b.remainingResources b.constructionFund .wood 20 m 0).1
              (purchaseStep b.remainingResources b.constructionFund .wood 20 m 0).2.2).1
            (purchaseStep b.remainingResources b.constructionFund .stone 20
              (purchaseStep b.remainingResources b.constructionFund .wood 20 m 0).1
              (purchaseStep b.remainingResources b.constructionFund .wood 20 m 0).2.2).2.2
          refine ⟨g3, ?_, ?_⟩
          · show ∀ o ∈ (builderPurchase b.constructionFund b.remainingResources m b.id).market.buyOrders,
              OrderOK o
            have : (builderPurchase b.constructionFund b.remainingResources m b.id).market.buyOrders =
                m.buyOrders := by
              rw [builderPurchase]
              rw [o3.1, o2.1, o1.1]
            rw [this]
            exact mbOK
          · show ∀ o ∈ (builderPurchase b.constructionFund b.remainingResources m b.id).market.sellOrders,
              OrderOK o
            have : (builderPurchase b.constructionFund b.remainingResources m b.id).market.sellOrders =
                m.sellOrders := by
              rw [builderPurchase]
              rw [o3.2, o2.2, o1.2]
            rw [this]
            exact msOK
        · refine modAt_forall hB ?_
          intro y hy
          rw [hbu] at hy
          cases hy
          by_cases hc : 0 < (builderPurchase b.constructionFund b.remainingResources m b.id).totalCost
          · rw [if_pos hc]
            refine ⟨?_, hbc⟩
            show 0 ≤ b.constructionFund -
              (builderPurchase b.constructionFund b.remainingResources m b.id).totalCost
            have : (builderPurchase b.constructionFund b.remainingResources m b.id).totalCost ≤
                b.constructionFund := t3
            linarith
          · rw [if_neg hc]
            exact ⟨hbf, hbc⟩

theorem replenishFund_inv {w : World} (bIdx : ℕ) (h : WorldInv w) :
    WorldInv (applyOp w (.replenishFund bIdx)) := by
  obtain ⟨hA, hM, hB⟩ := h
  have hgoods : ∀ m ∈ w.markets, ∀ p ∈ m.inventory, GoodOK p.2 :=
    fun m hm => (hM m hm).1
  cases hbu : w.buildings[bIdx]? with
  | none => simp only [applyOp, hbu]; exact ⟨hA, hM, hB⟩
  | some b =>
    simp only [applyOp, hbu]
    by_cases hprog : b.constructionProgress < 1
    · rw [if_pos hprog]
      have hest : 0 ≤ (b.remainingResources.map fun p =>
          getMarketPrice w.markets p.1 * (p.2 : ℚ)).sum := estimatedCost_nonneg hgoods
      by_cases hlow : b.constructionFund < (b.remainingResources.map fun p =>
          getMarketPrice w.markets p.1 * (p.2 : ℚ)).sum * (0.5 : ℚ)
      · rw [if_pos hlow]
        cases howner : b.owner with
        | agent oid =>
          dsimp only
          cases hf : w.agents.find? (fun a => a.id = oid) with
          | none => exact ⟨hA, hM, hB⟩
          | some owner =>
            dsimp only
            by_cases hcan : (b.remainingResources.map fun p =>
                getMarketPrice w.markets p.1 * (p.2 : ℚ)).sum * 2 ≤ owner.wallet
            · rw [if_pos hcan]
              refine ⟨?_, hM, ?_⟩
              · refine updateFirst_forall hA ?_
                intro c hc
                rw [hf] at hc
                cases hc
                obtain ⟨hw1, hi1⟩ := hA owner (List.mem_of_find?_eq_some hf)
                refine ⟨?_, hi1⟩
                show 0 ≤ owner.wallet - (b.remainingResources.map fun p =>
                  getMarketPrice w.markets p.1 * (p.2 : ℚ)).sum * 2
                linarith
              · refine modAt_forall hB ?_
                intro y hy
                obtain ⟨yf, yc⟩ := hB y (mem_of_getElem? hy)
                refine ⟨?_, yc⟩
                show 0 ≤ y.constructionFund + (b.remainingResources.map fun p =>
                  getMarketPrice w.markets p.1 * (p.2 : ℚ)).sum * 2
                linarith
            · rw [if_neg hcan]
              exact ⟨hA, hM, hB⟩
        | public =>
          dsimp only
          by_cases hempty : ((w.agents.filter fun a =>
              a.socialClass = .king ∨ a.socialClass = .noble).map fun a => a.id) = []
          · rw [if_pos hempty]
            exact ⟨hA, hM, hB⟩
          · rw [if_neg hempty]
            have hlen : 0 < (((w.agents.filter fun a =>
                a.socialClass = .king ∨ a.socialClass = .noble).map fun a => a.id)).length := by
              cases hl : ((w.agents.filter fun a =>
                  a.socialClass = .king ∨ a.socialClass = .noble).map fun a => a.id) with
              | nil => exact absurd hl hempty
              | cons x xs => simp
            have hper : 0 ≤ (b.remainingResources.map fun p =>
                getMarketPrice w.markets p.1 * (p.2 : ℚ)).sum * 2 /
                ((((w.agents.filter fun a =>
                  a.socialClass = .king ∨ a.socialClass = .noble).map fun a => a.id)).length : ℚ) := by
              apply div_nonneg (by linarith)
              positivity
            obtain ⟨cf1, cf2⟩ := contributeFold_preserve
              ((w.agents.filter fun a =>
                a.socialClass = .king ∨ a.socialClass = .noble).map fun a => a.id)
              _ hper (w.agents, 0) hA le_rfl
            by_cases hfd : 0 < (((w.agents.filter fun a =>
                a.socialClass = .king ∨ a.socialClass = .noble).map fun a => a.id).foldl
                (contributeNoble ((b.remainingResources.map fun p =>
                  getMarketPrice w.markets p.1 * (p.2 : ℚ)).sum * 2 /
                  ((((w.agents.filter fun a =>
                    a.socialClass = .king ∨ a.socialClass = .noble).map fun a => a.id)).length : ℚ)))
                (w.agents, 0)).2
            · rw [if_pos hfd]
              refine ⟨cf1, hM, ?_⟩
              refine modAt_forall hB ?_
              intro y hy
              obtain ⟨yf, yc⟩ := hB y (mem_of_getElem? hy)
              refine ⟨?_, yc⟩
              show 0 ≤ y.constructionFund + _
              linarith [cf2]
            · rw [if_neg hfd]
              exact ⟨cf1, hM, hB⟩
        | faction fid => exact ⟨hA, hM, hB⟩
      · rw [if_neg hlow]
        exact ⟨hA, hM, hB⟩
    · rw [if_neg hprog]
      exact ⟨hA, hM, hB⟩

/-- Preservation of the world invariant by every operation. -/
theorem applyOp_inv {w : World} (op : Op) (h : WorldInv w) :
    WorldInv (applyOp w op) := by
  cases op with
  | payWages => exact payWages_inv h
  | placeBuy aIdx mIdx r deficit desperate => exact placeBuy_inv aIdx mIdx r deficit desperate h
  | placeSell aIdx mIdx r excess merchant => exact placeSell_inv aIdx mIdx r excess merchant h
  | matchAndSettle mIdx => exact matchAndSettle_inv mIdx h
  | updatePricesAt mIdx => exact updatePricesAt_inv mIdx h
  | marketDeposit aIdx mIdx => exact marketDeposit_inv aIdx mIdx h
  | interMarketTransfer fromIdx toIdx r amount =>
    exact interMarketTransfer_inv fromIdx toIdx r amount h
  | builderPurchaseAt bIdx mIdx aIdx => exact builderPurchaseAt_inv bIdx mIdx aIdx h
  | replenishFund bIdx => exact replenishFund_inv bIdx h
  | collectTaxes => exact collectTaxes_inv h
  | walletWithdraw aIdx amount => exact walletWithdraw_inv aIdx amount h

/-- Preservation of the world invariant by every schedule. -/
theorem run_inv {ops : List Op} : ∀ {w : World}, WorldInv w → WorldInv (run w ops) := by
  induction ops with
  | nil => intro w h; exact h
  | cons op rest ih =>
    intro w h
    exact ih (applyOp_inv op h)

/-- C3: starting from any well-formed world, no sequence of the engine's
operations (wage payment, order placement, trade matching and settlement,
price updates, market deposits, inter-market transfers, builder purchases
from a building's construction fund, fund replenishment, tax collection,
wallet withdrawal) ever drives an agent wallet, a building construction
fund, an agent inventory entry or a market stock negative. -/
theorem c3_nonneg (ops : List Op) (w : World) (h : WorldInv w) :
    NonnegWorld (run w ops) := by
  obtain ⟨hA, hM, hB⟩ := run_inv h
  refine ⟨hA, ?_, ?_⟩
  · intro m hm p hp
    exact ((hM m hm).1 p hp).1
  · intro b hb
    exact (hB b hb).1

theorem c3World_wf : WorldInv c3World := by
  refine ⟨?_, ?_, ?_⟩
  · intro a ha
    simp only [c3World, List.mem_singleton] at ha
    subst ha
    constructor
    · norm_num
    · intro p hp
      simp only [List.mem_singleton] at hp
      subst hp
      norm_num
  · intro m hm
    simp only [c3World, List.mem_singleton] at hm
    subst hm
    refine ⟨?_, ?_, ?_⟩
    · intro p hp
      simp only [List.mem_singleton] at hp
      subst hp
      refine ⟨by norm_num, by norm_num, by norm_num, by norm_num⟩
    · intro o ho
      simp at ho
    · intro o ho
      simp at ho
  · intro b hb
    simp only [c3World, List.mem_singleton] at hb
    subst hb
    constructor
    · norm_num
    · intro p hp
      simp at hp

/-- C3 witness: the invariant holds of the concrete world, and the
ten-operation schedule leaves everything non-negative. -/
theorem c3_nonneg_witness :
    WorldInv c3World ∧ NonnegWorld (run c3World c3Ops) :=
  ⟨c3World_wf, c3_nonneg c3Ops c3World c3World_wf⟩

/-- C6: starting from any well-formed world, after any sequence of the
engine's operations (including good creation at deposits and transfers,
`update_prices` calls, and inter-market rebalancing) every stocked good's
current price lies within the clamp bounds `[0.5 × base, 3 × base]`. -/
theorem c6_price_bounds (ops : List Op) (w : World) (h : WorldInv w) :
    PricesInBounds (run w ops) := by
  obtain ⟨_, hM, _⟩ := run_inv h
  intro m hm p hp
  exact ⟨((hM m hm).1 p hp).2.2.1, ((hM m hm).1 p hp).2.2.2⟩

/-- C6 witness: the price bounds hold after a schedule that updates
prices, deposits new goods and rebalances across markets. -/
theorem c6_price_bounds_witness :
    WorldInv c3World ∧
    PricesInBounds (run c3World [.updatePricesAt 0, .marketDeposit 0 0,
      .interMarketTransfer 0 0 .wood 2, .updatePricesAt 0]) :=
  ⟨c3World_wf, c6_price_bounds _ c3World c3World_wf⟩

/-! ## C9: idempotence of the labor rebalance -/

theorem convertStep_job (fw fm ff : ℕ) (dW dS dI dF : ℚ) (cw cm cf : ℕ) :
    (convertStep fw fm ff dW dS dI dF cw cm cf).1 = Job.woodcutter ∨
    (convertStep fw fm ff dW dS dI dF cw cm cf).1 = Job.miner ∨
    (convertStep fw fm ff dW dS dI dF cw cm cf).1 = Job.farmer := by
  unfold convertStep
  split_ifs <;> simp

theorem elig_true_job (a : Agent) (h : eligibleForConversion a = true) :
    a.job = Job.builder ∨ a.job = Job.unemployed := by
  simp only [eligibleForConversion, decide_eq_true_eq] at h
  exact h.1

theorem elig_job (a : Agent)
    (h : a.job = Job.woodcutter ∨ a.job = Job.miner ∨ a.job = Job.farmer) :
    eligibleForConversion a = false := by
  rcases h with h | h | h <;> simp [eligibleForConversion, h]

theorem harvCount_cons_harvester (a : Agent) (l : List Agent)
    (h : a.job = Job.woodcutter ∨ a.job = Job.miner ∨ a.job = Job.farmer) :
    harvCount (a :: l) = harvCount l + 1 := by
  rcases h with h | h | h <;>
    simp [harvCount, countJob, List.filter_cons, h] <;> omega

theorem harvCount_cons_other (a : Agent) (l : List Agent)
    (h : a.job = Job.builder ∨ a.job = Job.unemployed) :
    harvCount (a :: l) = harvCount l := by
  rcases h with h | h <;> simp [harvCount, countJob, List.filter_cons, h]

theorem harvCount_cons (a : Agent) (l : List Agent) :
    harvCount (a :: l) = harvCount l +
      (if a.job = Job.woodcutter ∨ a.job = Job.miner ∨ a.job = Job.farmer
        then 1 else 0) := by
  by_cases h : a.job = Job.woodcutter ∨ a.job = Job.miner ∨ a.job = Job.farmer
  · rw [if_pos h, harvCount_cons_harvester a l h]
  · rw [if_neg h]
    have hj : a.job = Job.builder ∨ a.job = Job.unemployed := by
      rcases hcase : a.job with _ | _ | _ | _ | _
      · exact absurd (Or.inl hcase) h
      · exact absurd (Or.inr (Or.inl hcase)) h
      · exact absurd (Or.inr (Or.inr hcase)) h
      · exact Or.inl rfl
      · exact Or.inr rfl
    rw [harvCount_cons_other a l hj]
    omega

theorem convertLoop_length (n fw fm ff : ℕ) (dW dS dI dF : ℚ) :
    ∀ (l : List Agent) (c cw cm cf : ℕ),
    (convertLoop n fw fm ff dW dS dI dF c cw cm cf l).1.length = l.length := by
  intro l
  induction l with
  | nil =>
    intro c cw cm cf
    simp [convertLoop]
  | cons a rest ih =>
    intro c cw cm cf
    by_cases h1 : n ≤ c
    · simp [convertLoop, if_pos h1]
    · by_cases h2 : eligibleForConversion a = true
      · simp only [convertLoop, if_neg h1, if_pos h2, List.length_cons]
        rw [ih]
      · simp only [convertLoop, if_neg h1, if_neg h2, List.length_cons]
        rw [ih]

theorem convertLoop_noElig (n fw fm ff : ℕ) (dW dS dI dF : ℚ) :
    ∀ (l : List Agent) (c cw cm cf : ℕ),
    (∀ x ∈ l, eligibleForConversion x = false) →
    (convertLoop n fw fm ff dW dS dI dF c cw cm cf l).1 = l := by
  intro l
  induction l with
  | nil =>
    intro c cw cm cf _
    simp [convertLoop]
  | cons a rest ih =>
    intro c cw cm cf h
    by_cases h1 : n ≤ c
    · simp [convertLoop, if_pos h1]
    · have ha : eligibleForConversion a = false := h a (List.mem_cons_self a rest)
      have hne : ¬ (eligibleForConversion a = true) := by simp [ha]
      simp only [convertLoop, if_neg h1, if_neg hne]
      exact congrArg (List.cons a)
        (ih c cw cm cf fun x hx => h x (List.mem_cons_of_mem a hx))

theorem convertLoop_spec (n fw fm ff : ℕ) (dW dS dI dF : ℚ) :
    ∀ (l : List Agent) (c cw cm cf : ℕ), c ≤ n →
    harvCount (convertLoop n fw fm ff dW dS dI dF c cw cm cf l).1 + c
        = harvCount l + (convertLoop n fw fm ff dW dS dI dF c cw cm cf l).2 ∧
    c ≤ (convertLoop n fw fm ff dW dS dI dF c cw cm cf l).2 ∧
    (convertLoop n fw fm ff dW dS dI dF c cw cm cf l).2 ≤ n ∧
    ((convertLoop n fw fm ff dW dS dI dF c cw cm cf l).2 < n →
      ∀ x ∈ (convertLoop n fw fm ff dW dS dI dF c cw cm cf l).1,
        eligibleForConversion x = false) := by
  intro l
  induction l with
  | nil =>
    intro c cw cm cf hc
    refine ⟨by simp [convertLoop], by simp [convertLoop],
      by simp [convertLoop, hc], ?_⟩
    intro _ x hx
    simp [convertLoop] at hx
  | cons a rest ih =>
    intro c cw cm cf hc
    by_cases h1 : n ≤ c
    · have hcn : c = n := Nat.le_antisymm hc h1
      refine ⟨by simp [convertLoop, if_pos h1], by simp [convertLoop, if_pos h1],
        by simp [convertLoop, if_pos h1, hc], ?_⟩
      intro hlt
      exfalso
      simp only [convertLoop, if_pos h1] at hlt
      omega
    · by_cases h2 : eligibleForConversion a = true
      · have hc1 : c + 1 ≤ n := by omega
        obtain ⟨ih1, ih2, ih3, ih4⟩ := ih (c + 1)
          (convertStep fw fm ff dW dS dI dF cw cm cf).2.1
          (convertStep fw fm ff dW dS dI dF cw cm cf).2.2.1
          (convertStep fw fm ff dW dS dI dF cw cm cf).2.2.2 hc1
        have hja : a.job = Job.builder ∨ a.job = Job.unemployed :=
          elig_true_job a h2
        have hH : ∀ (l2 : List Agent),
            harvCount
              ({ a with job := (convertStep fw fm ff dW dS dI dF cw cm cf).1 }
                :: l2) = harvCount l2 + 1 :=
          fun l2 => harvCount_cons_harvester _ _
            (convertStep_job fw fm ff dW dS dI dF cw cm cf)
        simp only [convertLoop, if_neg h1, if_pos h2]
        refine ⟨?_, ?_, ?_, ?_⟩
        · rw [hH, harvCount_cons_other a rest hja]
          omega
        · omega
        · exact ih3
        · intro hlt x hx
          rcases List.mem_cons.mp hx with rfl | hx2
          · exact elig_job _ (convertStep_job fw fm ff dW dS dI dF cw cm cf)
          · exact ih4 hlt x hx2
      · obtain ⟨ih1, ih2, ih3, ih4⟩ := ih c cw cm cf hc
        have ha2 : eligibleForConversion a = false := by
          revert h2
          cases eligibleForConversion a <;> simp
        simp only [convertLoop, if_neg h1, if_neg h2]
        refine ⟨?_, ?_, ?_, ?_⟩
        · rw [harvCount_cons, harvCount_cons]
          omega
        · exact ih2
        · exact ih3
        · intro hlt x hx
          rcases List.mem_cons.mp hx with rfl | hx2
          · exact ha2
          · exact ih4 hlt x hx2

theorem rebalanceLabor_fixed (markets : List Market) (y : List Agent)
    (hy0 : ¬ y.length = 0)
    (hfix : harvCount y < (rebalanceTargets markets y.length).1.1 →
      ∀ x ∈ y, eligibleForConversion x = false) :
    rebalanceLabor markets y = y := by
  simp only [rebalanceLabor]
  rw [if_neg hy0]
  by_cases hhc : harvCount y < (rebalanceTargets markets y.length).1.1
  · rw [if_pos hhc]
    exact convertLoop_noElig _ _ _ _ _ _ _ _ y 0 _ _ _ (hfix hhc)
  · rw [if_neg hhc]

/-- C9: `rebalance_labor` is idempotent — running the labor-allocation
controller twice in succession against the same markets, with no
intervening change to prices, inventories or the agent roster, leaves
the roster produced by the first run unchanged: once the harvester
target is met, or no eligible (builder or unemployed, non-protected)
agents remain, the operation is a no-op. -/
theorem c9_idempotent (markets : List Market) (agents : List Agent) :
    rebalanceLabor markets (rebalanceLabor markets agents)
      = rebalanceLabor markets agents := by
  by_cases h0 : agents.length = 0
  · have hy : rebalanceLabor markets agents = agents := by
      rw [rebalanceLabor, if_pos h0]
    rw [hy]
    exact hy
  · rcases hT : rebalanceTargets markets agents.length with
      ⟨⟨th, fw, fm, ff⟩, dW, dS, dI, dF⟩
    by_cases hc : harvCount agents < th
    · have hy : rebalanceLabor markets agents =
          (convertLoop (th - harvCount agents) fw fm ff dW dS dI dF 0
            (countJob agents Job.woodcutter) (countJob agents Job.miner)
            (countJob agents Job.farmer) agents).1 := by
        simp only [rebalanceLabor, hT]
        rw [if_neg h0, if_pos hc]
      rw [hy]
      obtain ⟨s1, s2, s3, s4⟩ := convertLoop_spec (th - harvCount agents)
        fw fm ff dW dS dI dF agents 0 (countJob agents Job.woodcutter)
        (countJob agents Job.miner) (countJob agents Job.farmer)
        (Nat.zero_le _)
      have hlen := convertLoop_length (th - harvCount agents) fw fm ff dW dS dI dF
        agents 0 (countJob agents Job.woodcutter) (countJob agents Job.miner)
        (countJob agents Job.farmer)
      apply rebalanceLabor_fixed
      · rw [hlen]
        exact h0
      · intro hhc x hx
        have hhc2 : harvCount (convertLoop (th - harvCount agents) fw fm ff
            dW dS dI dF 0 (countJob agents Job.woodcutter)
            (countJob agents Job.miner) (countJob agents Job.farmer)
            agents).1 < th := by
          rw [hlen, hT] at hhc
          exact hhc
        by_cases hdone : (convertLoop (th - harvCount agents) fw fm ff dW dS dI dF
            0 (countJob agents Job.woodcutter) (countJob agents Job.miner)
            (countJob agents Job.farmer) agents).2 = th - harvCount agents
        · exfalso
          omega
        · exact s4 (Nat.lt_of_le_of_ne s3 hdone) x hx
    · have hy : rebalanceLabor markets agents = agents := by
        simp only [rebalanceLabor, hT]
        rw [if_neg h0, if_neg hc]
      rw [hy]
      exact hy

end WorldSim
